import Mathlib

/-!
# Verification of the aio-abs-providers aggregation pipeline

Shallow embedding of the aggregation pipeline of the backbone server
(`src/lubimyczytac/server.js`, the config-driven backbone revision):
similarity scoring, per-provider capping + global thresholding, the
bounded-concurrency enrichment pool, the three-key ranker, and the
merge engine, together with the `adjustedMetadata` ISBN penalty of
`lubimyczytac/provider.js` and `AudiotekaProvider.mapWithConcurrency`.

JavaScript numbers are modelled as rationals (`ℚ`), JS strings as
`String`, absent/`undefined`/`null` fields as `Option`, JS objects used
as string-keyed maps as association lists in key-insertion order.
Fields of result objects that no claim mentions (subtitle, rating,
duration, seriesIndex, publishedYear formatting, `_mergedFieldSources`
bookkeeping for fields outside the claims) are omitted from the record
type; everything the claims touch is embedded from the source.
-/

set_option allowUnsafeReducibility true
attribute [local semireducible] Rat.add Rat.mul Rat.sub Rat.div Rat.inv Rat.neg

namespace AioAbs

/-- A search result item flowing through the backbone pipeline: a snippet
tagged with `_provider`/`_providerPriority` and scored (`similarity`),
possibly enriched with full-metadata fields.  `authors` is always an
array at this point in the pipeline (the backbone normalizes it for every
combined match before scoring), `type_` models `type`, `mergedFrom`
models `_mergedFrom` (present only on synthetic merged records). -/
structure Item where
  id : Option String := none
  title : Option String := none
  authors : List String := []
  narrator : Option String := none
  description : Option String := none
  cover : Option String := none
  url : Option String := none
  type_ : Option String := none
  format : Option String := none
  languages : Option (List String) := none
  publisher : Option String := none
  publishedDate : Option String := none
  series : Option (List String) := none
  genres : Option (List String) := none
  tags : Option (List String) := none
  identifiers : Option (List (String × String)) := none
  provider : String := ""
  providerPriority : Option Int := none
  similarity : ℚ := 0
  fullFetched : Bool := false
  mergedFrom : List (String × Option String) := []
deriving DecidableEq

/-- Configuration surface read by the `/search` pipeline:
`providers[p].maxResults` (a JS number, absent when not configured),
`global.similarityThreshold`, `global.titleWeight`,
`global.mergeBestResults` and `global.mergePreferences`. -/
structure Config where
  maxResults : String → Option Int
  similarityThreshold : Option ℚ := none
  titleWeight : Option ℚ := none
  mergeBestResults : Bool := false
  mergePreferences : String → Option String := fun _ => none

/-- Threshold scaling: `Math.max(0, Math.min(100, thresholdPct)) / 100`
where `thresholdPct` defaults to 0 when not a number. -/
def thresholdOf (cfg : Config) : ℚ :=
  max 0 (min 100 (cfg.similarityThreshold.getD 0)) / 100

/-! ## Candidate selection: per-provider cap, then global threshold -/

/-- Comparator of the per-provider cap sort,
`(a, b) => (b.similarity || 0) - (a.similarity || 0)`: `a` may stay
before `b` iff the comparator is `≤ 0`, i.e. `b.similarity ≤ a.similarity`. -/
def simLE (a b : Item) : Bool :=
  decide (b.similarity ≤ a.similarity)

/-- Stable sort by similarity descending, `matches.slice().sort(...)`. -/
def sortSimDesc (g : List Item) : List Item :=
  g.mergeSort simLE

/-- The members of one provider's group in `byProviderAll` (grouping the
filtered list by `_provider` keeps each group in list order). -/
def groupOf (l : List Item) (p : String) : List Item :=
  l.filter (fun m => m.provider == p)

/-- Keys of a JS object built by repeated insertion: first-occurrence
order, no duplicates (the iteration order of `Object.entries`). -/
def objKeys : List String → List String
  | [] => []
  | x :: xs => x :: objKeys (xs.filter (fun y => y ≠ x))
termination_by l => l.length
decreasing_by
  simp only [List.length_cons]
  exact Nat.lt_succ_of_le (List.length_filter_le _ _)

/-- Provider keys of `byProviderAll` in insertion order. -/
def providerKeys (l : List Item) : List String :=
  objKeys (l.map (·.provider))

/-- Cap one provider group: sort by similarity descending and truncate to
`maxResults` when that is a number `> 0` (`0`/unset means unlimited). -/
def capGroup (mx : Option Int) (g : List Item) : List Item :=
  if 0 < mx.getD 0 then (sortSimDesc g).take (mx.getD 0).toNat else sortSimDesc g

/-- The flattened `capped` list: every provider group of the filtered
list, capped, in provider key order (`Object.values(...).flat()`). -/
def cappedList (cfg : Config) (l : List Item) : List Item :=
  (providerKeys l).flatMap (fun p => capGroup (cfg.maxResults p) (groupOf l p))

/-- Candidates above threshold, computed after the per-provider cap:
`capped.filter(m => m.similarity >= threshold)`. -/
def selectCandidates (cfg : Config) (l : List Item) : List Item :=
  (cappedList cfg l).filter (fun m => decide (thresholdOf cfg ≤ m.similarity))

/-- Concrete configuration used to witness C1: provider `provA` capped at
one result, similarity threshold 50 percent. -/
def c1cfg : Config :=
  { maxResults := fun q => if q = "provA" then some 1 else none
    similarityThreshold := some 50 }

/-- Concrete scored list used to witness C1: two `provA` candidates above
threshold and one `provB` candidate. -/
def c1list : List Item :=
  [ { provider := "provA", similarity := 9/10 }
  , { provider := "provA", similarity := 8/10 }
  , { provider := "provB", similarity := 7/10 } ]

/-! ## Similarity scoring -/

/-- Cleaned query string, `q.trim().toLowerCase()`. -/
def cleanedQueryOf (q : String) : String := q.trim.toLower

/-- Cleaned author string, `author ? author.trim().toLowerCase() : ''`
(an absent or empty author both yield the empty string). -/
def cleanedAuthorOf (author : Option String) : String :=
  (author.getD "").trim.toLower

/-- Title weight as a fraction:
`typeof config.global.titleWeight === 'number' ? titleWeight / 100 : 0.6`. -/
def titleWeightOf (raw : Option ℚ) : ℚ :=
  match raw with
  | some w => w / 100
  | none => 3 / 5

/-- Fold of `max` over a list starting from a seed, the shape of
`Math.max(...)` on a nonempty argument list. -/
def listMaxQ (x : ℚ) : List ℚ → ℚ
  | [] => x
  | y :: ys => listMaxQ (max x y) ys

/-- Best author similarity,
`Math.max(...m.authors.map(a => compare((a||'').toLowerCase(), cleanedAuthor)))`.
Only ever invoked on a nonempty `authors` list (the caller guards on
`m.authors.length`); the `[]` case is junk. -/
def bestAuthorSim (sim : String → String → ℚ) (ca : String) : List String → ℚ
  | [] => 0
  | a :: as => listMaxQ (sim a.toLower ca) (as.map (fun b => sim b.toLower ca))

/-- Unified similarity of one match (server.js `scored`): the title
similarity of `(m.title || '').toLowerCase()` against the cleaned query,
blended with the best author similarity when a cleaned author is present
and the match has authors.  `sim` abstracts
`stringSimilarity.compareTwoStrings`. -/
def scoreItem (sim : String → String → ℚ) (tw : ℚ) (cq ca : String) (m : Item) : ℚ :=
  if ca ≠ "" ∧ m.authors ≠ [] then
    sim ((m.title.getD "").toLower) cq * tw + bestAuthorSim sim ca m.authors * (1 - tw)
  else
    sim ((m.title.getD "").toLower) cq

/-- ISBN of an item as stored under `identifiers.isbn`. -/
def isbnOf (m : Item) : Option String :=
  (m.identifiers.getD []).lookup "isbn"

/-- The lubimyczytac provider's `adjustedMetadata` penalty: multiply the
similarity by 0.99 when `identifiers?.isbn` is missing or empty. -/
def adjustedSimilarity (m : Item) : ℚ :=
  if (isbnOf m).getD "" = "" then m.similarity * (99 / 100) else m.similarity

/-- Concrete similarity metric used in witnesses: exact match scores 1,
anything else 0 (a valid metric with range contained in `[0,1]`). -/
def eqSim (a b : String) : ℚ := if a = b then 1 else 0

/-- Concrete snippet used to witness the scoring claims. -/
def c2item : Item :=
  { title := some "foundation", authors := ["isaac asimov"] }

/-! ## Final ranking -/

/-- Audiobook test used by the ranker and the merge engine:
`a.type === 'audiobook' || (a.format && a.format === 'audiobook')`. -/
def isAudio (i : Item) : Bool :=
  i.type_ == some "audiobook" || i.format == some "audiobook"

/-- Numeric audiobook flag (`aIsAudio`/`bIsAudio` in the comparator). -/
def audioVal (i : Item) : ℕ := if isAudio i then 1 else 0

/-- Provider priority with the `typeof === 'number' ? x : 0` default. -/
def priOf (i : Item) : Int := i.providerPriority.getD 0

/-- Three-key comparator of `fullResults.sort`: similarity descending,
then audiobook before book, then provider priority descending.  `a` may
stay before `b` exactly when the JS comparator value is `≤ 0`. -/
def rankLE (a b : Item) : Bool :=
  if a.similarity ≠ b.similarity then decide (b.similarity < a.similarity)
  else if audioVal a ≠ audioVal b then decide (audioVal b < audioVal a)
  else decide (priOf b ≤ priOf a)

/-- The final ranking: a stable sort by the three-key comparator
(JS `Array.prototype.sort` is stable and `rankLE` is a total preorder,
so the stable merge sort is the faithful model). -/
def rank (l : List Item) : List Item :=
  l.mergeSort rankLE

/-- The three comparator keys of an item: similarity, audiobook flag,
provider priority.  Two items are tied exactly when their keys agree. -/
def rkey (i : Item) : ℚ × ℕ × Int :=
  (i.similarity, audioVal i, priOf i)

/-- Two items fully tied on all three ranking keys but distinct. -/
def c7x : Item := { title := some "x", provider := "a", similarity := 1 }

/-- Second fully tied item, distinguishable from `c7x` by its title. -/
def c7y : Item := { title := some "y", provider := "b", similarity := 1 }

/-- An item with a strictly smaller similarity key than `c7x`. -/
def c7z : Item := { title := some "z", provider := "c", similarity := 0 }

/-! ## Merge engine -/

/-- Tie tolerance, `const EPS = 1e-6`. -/
def EPS : ℚ := 1 / 1000000

/-- JS truthiness of an optional string field: defined and non-empty. -/
def truthyStr (s : Option String) : Bool :=
  match s with
  | none => false
  | some v => v ≠ ""

/-- JS `x || d` on an optional string: the value when truthy, else `d`. -/
def jsOr (v : Option String) (d : String) : String :=
  if v.getD "" == "" then d else v.getD ""

/-- Metadata-richness count (`countNonEmpty`): one point per truthy field
in the fixed field list.  `authors` is always an array here and arrays
(even empty ones) are truthy in JS, so it always counts; the other array
and map fields count whenever present, string fields when non-empty. -/
def countNonEmpty (i : Item) : ℕ :=
  (if truthyStr i.title then 1 else 0)
  + 1
  + (if truthyStr i.narrator then 1 else 0)
  + (if truthyStr i.description then 1 else 0)
  + (if truthyStr i.cover then 1 else 0)
  + (if truthyStr i.type_ then 1 else 0)
  + (if truthyStr i.url then 1 else 0)
  + (if truthyStr i.id then 1 else 0)
  + (if i.languages.isSome then 1 else 0)
  + (if truthyStr i.publisher then 1 else 0)
  + (if truthyStr i.publishedDate then 1 else 0)
  + (if i.series.isSome then 1 else 0)
  + (if i.genres.isSome then 1 else 0)
  + (if i.tags.isSome then 1 else 0)
  + (if i.identifiers.isSome then 1 else 0)

/-- Resolution-order comparator of the tie group (`sortedGroup`):
provider priority descending, then non-empty-field count descending. -/
def resolutionLE (a b : Item) : Bool :=
  if priOf a ≠ priOf b then decide (priOf b < priOf a)
  else decide (countNonEmpty b ≤ countNonEmpty a)

/-- The tie group in resolution order, `topGroup.slice().sort(...)`. -/
def sortedGroupOf (g : List Item) : List Item :=
  g.mergeSort resolutionLE

/-- Dynamic field-presence test (`hasField`): `language` means a
non-empty `languages` array, `identifiers` a non-empty key map, array
fields are present when non-empty, string fields when defined, non-null
and non-empty.  Fields outside the embedded model test false. -/
def hasField (i : Item) : String → Bool
  | "language" => !(i.languages.getD []).isEmpty
  | "identifiers" => !(i.identifiers.getD []).isEmpty
  | "title" => truthyStr i.title
  | "narrator" => truthyStr i.narrator
  | "description" => truthyStr i.description
  | "cover" => truthyStr i.cover
  | "type" => truthyStr i.type_
  | "url" => truthyStr i.url
  | "id" => truthyStr i.id
  | "publisher" => truthyStr i.publisher
  | "authors" => !i.authors.isEmpty
  | "languages" => !(i.languages.getD []).isEmpty
  | "genres" => !(i.genres.getD []).isEmpty
  | "tags" => !(i.tags.getD []).isEmpty
  | _ => false

/-- Shared fallback of `pickFieldAndSource`: the first member of the
scanned group that has the field, recorded as the contributor. -/
def pickNoPref (has : Item → Bool) (g : List Item) : Option Item × Option String :=
  match g.find? has with
  | some c => (some c, some c.provider)
  | none => (none, none)

/-- `pickFieldAndSource` reduced to its contributing member and recorded
source: preferred provider first when configured and usable, otherwise
the first member in scan order that has the field. -/
def pickContributor (preferred : Option String) (has : Item → Bool) (g : List Item) :
    Option Item × Option String :=
  match preferred with
  | some pref =>
    (match g.find? (fun i => i.provider == pref && has i) with
     | some p => (some p, some pref)
     | none => pickNoPref has g)
  | none => pickNoPref has g

/-- `pickFieldAndSource` for a single-valued string field: the picked
value is the chosen member's field value. -/
def pickStrField (prefs : String → Option String) (f : String)
    (get : Item → Option String) (sg : List Item) : Option String × Option String :=
  match pickContributor (prefs f) (fun i => hasField i f) sg with
  | (some p, src) => (get p, src)
  | (none, src) => (none, src)

/-- Cover pick with the audiobook-cover fallback: the preference-aware
pick first; when its value is falsy, the first audiobook of the group
with a cover supplies value and source. -/
def coverValueSource (prefs : String → Option String) (sg : List Item) :
    Option String × Option String :=
  let p0 := pickStrField prefs "cover" (·.cover) sg
  if p0.1.getD "" == "" then
    match sg.find? (fun i => isAudio i && truthyStr i.cover) with
    | some a => (a.cover, some a.provider)
    | none => p0
  else p0

/-- Fallback loop of `pickIdentifierAndSource`: first member whose
identifier map has a truthy value under `key`. -/
def pickIdentifierNoPref (key : String) (sg : List Item) : Option String × Option String :=
  match sg.find? (fun i => ((i.identifiers.getD []).lookup key).getD "" != "") with
  | some p => ((p.identifiers.getD []).lookup key, some p.provider)
  | none => (none, none)

/-- `pickIdentifierAndSource(key)`: the `identifiers` preference first,
then the first member carrying the key. -/
def pickIdentifierAndSource (prefs : String → Option String) (key : String)
    (sg : List Item) : Option String × Option String :=
  match prefs "identifiers" with
  | some pref =>
    (match sg.find? (fun i =>
        i.provider == pref && ((i.identifiers.getD []).lookup key).getD "" != "") with
     | some p => ((p.identifiers.getD []).lookup key, some pref)
     | none => pickIdentifierNoPref key sg)
  | none => pickIdentifierNoPref key sg

/-- JS `Set` insertion: append unless already present. -/
def setInsert (acc : List String) (s : String) : List String :=
  if s ∈ acc then acc else acc ++ [s]

/-- Tag normalization, `(s || '').toString().trim().toLowerCase()`. -/
def normalizeTag (s : String) : String := s.trim.toLower

/-- Union of a list field over the group, normalized and de-duplicated
in insertion order, skipping entries that normalize to the empty
string. -/
def listUnionNormalized (getL : Item → Option (List String)) (sg : List Item) : List String :=
  sg.foldl (fun acc it =>
    match getL it with
    | some vs => vs.foldl (fun acc2 v =>
        if normalizeTag v == "" then acc2 else setInsert acc2 (normalizeTag v)) acc
    | none => acc) []

/-- `pickListPrefOrUnion`: the configured provider's list verbatim when
it is a non-empty array, otherwise the normalized de-duplicated union. -/
def pickListPrefOrUnion (prefs : String → Option String) (f : String)
    (getL : Item → Option (List String)) (sg : List Item) : List String :=
  match prefs f with
  | some pp =>
    (match sg.find? (fun i => i.provider == pp && !((getL i).getD []).isEmpty) with
     | some p => (getL p).getD []
     | none => listUnionNormalized getL sg)
  | none => listUnionNormalized getL sg

/-- Languages union over the group (exact values, no normalization). -/
def languagesUnion (sg : List Item) : List String :=
  sg.foldl (fun acc it => (it.languages.getD []).foldl setInsert acc) []

/-- Identifier merge: key by key over the group in resolution order, the
first truthy value per key wins. -/
def mergeIdentifiers (sg : List Item) : List (String × String) :=
  sg.foldl (fun acc it =>
    (it.identifiers.getD []).foldl (fun acc2 kv =>
      if (acc2.lookup kv.1).isNone && kv.2 != "" then acc2 ++ [kv] else acc2) acc) []

/-- Chosen series string: the configured provider's first series when
present, else the first entry of the truthy-series union over the group.
The separate `seriesIndex` bookkeeping is not modelled and the union is
idealized: in the source the `else` of the union loop binds to the inner
`if (s)` rather than to `Array.isArray` (a dangling-else, so a legacy
bare-string series is never gathered by the fallback union and a falsy
array entry adds the array object itself); the `Option (List String)`
model cannot distinguish those shapes and no claim references series.
A legacy bare-string series `s` is represented as `some [s]`. -/
def chosenSeriesOf (prefs : String → Option String) (sg : List Item) : String :=
  let fromPref :=
    match prefs "series" with
    | some sp =>
      (match sg.find? (fun i => i.provider == sp && i.series.isSome) with
       | some p => ((p.series.getD []).head?).getD ""
       | none => "")
    | none => ""
  if fromPref == "" then
    (((sg.foldl (fun acc it =>
        (it.series.getD []).foldl (fun a2 v => if v == "" then a2 else setInsert a2 v) acc)
      []).head?).getD "")
  else fromPref

/-- One `_mergedFrom` entry, `{ provider: i._provider, id: i.id || i._id || null }`
(the legacy `_id` alias is not modelled). -/
def mergedFromEntry (i : Item) : String × Option String :=
  (i.provider, if (i.id.getD "") == "" then none else i.id)

/-- Fold of `max` over priorities, the shape of `Math.max(...)`. -/
def listMaxInt (x : Int) : List Int → Int
  | [] => x
  | y :: ys => listMaxInt (max x y) ys

/-- Highest provider priority of the tie group (nonempty in every use). -/
def maxPriority (g : List Item) : Int :=
  match g.map priOf with
  | [] => 0
  | x :: xs => listMaxInt x xs

/-- The synthetic merged record, built from the tie group sorted into
resolution order (`sg`).  `publishedYear`, `rating`, `subtitle`,
`duration`, `language`, `source`, `seriesIndex` and the
`_mergedFieldSources` bookkeeping are not modelled: no claim mentions
them.  Fields set to `''` in JS are `some ""`, to `null`/`undefined`
are `none`. -/
def buildMergedSorted (prefs : String → Option String) (sg topGroup : List Item)
    (topSim : ℚ) : Item :=
  { id := some (jsOr (pickStrField prefs "id" (·.id) sg).1
      (jsOr (pickIdentifierAndSource prefs "lubimyczytac" sg).1
        (jsOr (pickIdentifierAndSource prefs "audioteka" sg).1 "")))
    title := some (jsOr (pickStrField prefs "title" (·.title) sg).1 "")
    authors := (match (pickContributor (prefs "authors") (fun i => hasField i "authors") sg).1 with
      | some p => p.authors
      | none => [])
    narrator := some (jsOr (pickStrField prefs "narrator" (·.narrator) sg).1 "")
    description := some (jsOr (pickStrField prefs "description" (·.description) sg).1 "")
    cover := (if (coverValueSource prefs sg).1.getD "" == "" then none
              else (coverValueSource prefs sg).1)
    url := some (jsOr (pickStrField prefs "url" (·.url) sg).1 "")
    type_ := some (jsOr (pickStrField prefs "type" (·.type_) sg).1
      (if topGroup.any (fun i => i.type_ == some "audiobook") then "audiobook" else "book"))
    format := none
    languages := some (languagesUnion sg)
    publisher := some (jsOr (pickStrField prefs "publisher" (·.publisher) sg).1 "")
    publishedDate := none
    series := (if chosenSeriesOf prefs sg == "" then none else some [chosenSeriesOf prefs sg])
    genres := some (pickListPrefOrUnion prefs "genres" (·.genres) sg)
    tags := some (pickListPrefOrUnion prefs "tags" (·.tags) sg)
    identifiers := some (mergeIdentifiers sg)
    provider := "merged"
    providerPriority := some (maxPriority topGroup + 1)
    similarity := topSim
    fullFetched := false
    mergedFrom := topGroup.map mergedFromEntry }

/-- The merged record of a tie group: build from the group sorted into
resolution order. -/
def buildMerged (prefs : String → Option String) (topGroup : List Item) (topSim : ℚ) : Item :=
  buildMergedSorted prefs (sortedGroupOf topGroup) topGroup topSim

/-- Redundancy check, first half: identical title and identical ordered
authors, compared via `join('|')` as in the source.  The
`top.authors && merged.authors` truthiness guards always pass (both are
arrays here). -/
def sameTitleAuthors (top merged : Item) : Bool :=
  top.title == merged.title
    && (String.intercalate "|" top.authors == String.intercalate "|" merged.authors)

/-- Redundancy check, second half (`topHasAllMergedFields`): for each of
narrator, description, cover, languages, identifiers, genres, tags —
when the merged value is falsy or an empty array the field is ignored,
an array field requires a non-empty array on top, `identifiers` requires
a non-empty identifier map on top (the merged identifiers value is an
object, which is truthy in JS even when empty, so it is never ignored),
and a string field requires a truthy value on top. -/
def topHasAllMergedFields (top merged : Item) : Bool :=
  (if truthyStr merged.narrator then truthyStr top.narrator else true)
  && (if truthyStr merged.description then truthyStr top.description else true)
  && (if truthyStr merged.cover then truthyStr top.cover else true)
  && (if (merged.languages.getD []).isEmpty then true else !(top.languages.getD []).isEmpty)
  && (match merged.identifiers with
      | none => true
      | some _ => !(top.identifiers.getD []).isEmpty)
  && (if (merged.genres.getD []).isEmpty then true else !(top.genres.getD []).isEmpty)
  && (if (merged.tags.getD []).isEmpty then true else !(top.tags.getD []).isEmpty)

/-- Modelled from the spec for claim C6 (the claim's own wording of the
suppression condition, kept separate from the code's
`topHasAllMergedFields` for comparison): the top organic result has a
non-empty value for every field the merge would contribute among
narrator, description, cover, languages, identifiers, genres and tags —
an empty merged identifiers map contributes nothing and is ignored. -/
def claimTopHasAllContributedFields (top merged : Item) : Bool :=
  (if truthyStr merged.narrator then truthyStr top.narrator else true)
  && (if truthyStr merged.description then truthyStr top.description else true)
  && (if truthyStr merged.cover then truthyStr top.cover else true)
  && (if (merged.languages.getD []).isEmpty then true else !(top.languages.getD []).isEmpty)
  && (if (merged.identifiers.getD []).isEmpty then true else !(top.identifiers.getD []).isEmpty)
  && (if (merged.genres.getD []).isEmpty then true else !(top.genres.getD []).isEmpty)
  && (if (merged.tags.getD []).isEmpty then true else !(top.tags.getD []).isEmpty)

/-- The tie group: all results whose similarity is within `EPS` of the
top result's similarity (`topSim = fullResults[0].similarity || 0`; the
JS `|| 0` guards are the identity on the numeric similarities of this
model). -/
def tieGroupOf (fullResults : List Item) (top : Item) : List Item :=
  fullResults.filter (fun fr => decide (|fr.similarity - top.similarity| ≤ EPS))

/-- The optional merge pass over the ranked results (`mergeBestResults`):
when enabled and a tie group of at least two results sits at the top,
build the merged record and prepend it unless it is redundant with the
current top result. -/
def mergeStep (mergeEnabled : Bool) (prefs : String → Option String)
    (fullResults : List Item) : List Item :=
  match fullResults with
  | [] => fullResults
  | top :: _ =>
    if mergeEnabled then
      let topGroup := tieGroupOf fullResults top
      if 1 < topGroup.length then
        let merged := buildMerged prefs topGroup top.similarity
        if sameTitleAuthors top merged && topHasAllMergedFields top merged then
          fullResults
        else
          merged :: fullResults
      else fullResults
    else fullResults

/-- Empty merge-preference map. -/
def noPrefs : String → Option String := fun _ => none

/-- Cover preference pointing at provider `B` (the C5 scenario). -/
def prefsCover : String → Option String :=
  fun f => if f = "cover" then some "B" else none

/-- C5 scenario: tied provider `A`, priority 10, no cover. -/
def c5A : Item :=
  { title := some "t", authors := ["au"], provider := "A",
    providerPriority := some 10, similarity := 1/2 }

/-- C5 scenario: tied provider `B`, priority 5, has a cover. -/
def c5B : Item :=
  { title := some "t", authors := ["au"], provider := "B",
    providerPriority := some 5, cover := some "https://b/cover.jpg", similarity := 1/2 }

/-- Variant of provider A's item that also carries a cover, to show the
preference overriding the resolution order. -/
def c5A2 : Item :=
  { title := some "t", authors := ["au"], provider := "A",
    providerPriority := some 10, cover := some "https://a/cover.jpg", similarity := 1/2 }

/-- C6 counterexample: top organic result, no identifiers. -/
def c6x : Item :=
  { title := some "t", authors := ["au"], id := some "1", provider := "pa",
    similarity := 1/2 }

/-- C6 counterexample: tied sibling from another provider. -/
def c6y : Item :=
  { title := some "t", authors := ["au"], id := some "2", provider := "pb",
    similarity := 1/2 }

/-- C6 witness: tied item carrying an ISBN identifier. -/
def c6z : Item :=
  { title := some "t", authors := ["au"], id := some "1", provider := "pa",
    identifiers := some [("isbn", "9788301")], similarity := 1/2 }

/-- C6 witness: tied sibling with the same identifier key. -/
def c6w : Item :=
  { title := some "t", authors := ["au"], id := some "2", provider := "pb",
    identifiers := some [("isbn", "9788301")], similarity := 1/2 }

/-- C9 counterexample: a duplicated snippet (same provider, same id)
whose two copies tie at the top. -/
def c9x : Item :=
  { title := some "t", authors := ["au"], id := some "1", provider := "pa",
    similarity := 1/2 }

/-! ## The bounded-concurrency enrichment pool

`AudiotekaProvider.mapWithConcurrency(items, iteratorFn, limit)` spawns
`Math.min(limit, items.length)` async workers over a shared index
cursor: each worker atomically claims `idx = i++` (the read and the
increment happen with no interleaving point between them), returns when
`idx >= items.length`, and otherwise awaits `iteratorFn(items[idx])`,
storing the result — or `null` when the iterator throws — into
`results[idx]`.  The interleaving of the single-threaded event loop is
modelled by an explicit schedule: a list of worker indices, each entry
letting that worker run up to its next interleaving point. -/

/-- Status of one pool worker: ready to claim an index, computation for
a claimed index in flight, or returned. -/
inductive WStatus where
  | idle : WStatus
  | claimed : ℕ → WStatus
  | retired : WStatus
deriving DecidableEq

/-- State of one `mapWithConcurrency` run: the shared index cursor, the
results array (a slot is `none` until written), the workers, and the
trace of indices for which the iterator has been invoked. -/
structure MwcState (γ : Type) where
  counter : ℕ
  results : List (Option γ)
  workers : List WStatus
  invoked : List ℕ
deriving DecidableEq

/-- Initial pool state: cursor 0, `n` unwritten slots, `w` idle workers. -/
def mwcInit (γ : Type) (n w : ℕ) : MwcState γ :=
  ⟨0, List.replicate n none, List.replicate w WStatus.idle, []⟩

/-- One step of worker `k`: an idle worker atomically claims the cursor
value (always incrementing it, as `i++` does) and retires when the index
is out of range; a worker with a claimed index stores the computed slot
value and becomes idle again; a retired or nonexistent worker does
nothing.  `g idx` is the value stored for slot `idx`. -/
def mwcStep (g : ℕ → γ) (n : ℕ) (s : MwcState γ) (k : ℕ) : MwcState γ :=
  match s.workers[k]? with
  | some WStatus.idle =>
    if s.counter < n then
      { counter := s.counter + 1, results := s.results,
        workers := s.workers.set k (WStatus.claimed s.counter),
        invoked := s.invoked ++ [s.counter] }
    else
      { counter := s.counter + 1, results := s.results,
        workers := s.workers.set k WStatus.retired,
        invoked := s.invoked }
  | some (WStatus.claimed idx) =>
    { counter := s.counter, results := s.results.set idx (some (g idx)),
      workers := s.workers.set k WStatus.idle,
      invoked := s.invoked }
  | some WStatus.retired => s
  | none => s

/-- Run a schedule from the initial state. -/
def mwcRun (g : ℕ → γ) (n w : ℕ) (σ : List ℕ) : MwcState γ :=
  σ.foldl (mwcStep g n) (mwcInit γ n w)

/-- A run is complete when every worker has returned — only then does
`Promise.all(workers)` resolve and the function return `results`. -/
def mwcDone (s : MwcState γ) : Prop :=
  ∀ st ∈ s.workers, st = WStatus.retired

instance mwcDoneDecidable {γ : Type} (s : MwcState γ) : Decidable (mwcDone s) :=
  inferInstanceAs (Decidable (∀ st ∈ s.workers, st = WStatus.retired))

/-- The value stored for slot `idx`:
`await iteratorFn(items[idx])` under the caller's try/catch, with `none`
modelling the `null` stored when the iterator throws. -/
def slotValue (items : List α) (iter : α → Option β) (idx : ℕ) : Option β :=
  match items[idx]? with
  | some a => iter a
  | none => none

/-- The results array returned by `mapWithConcurrency` for a schedule:
`Math.min(limit, items.length)` workers over `items.length` slots. -/
def mwcResults (items : List α) (iter : α → Option β) (limit : ℕ) (σ : List ℕ) :
    List (Option (Option β)) :=
  (mwcRun (slotValue items iter) items.length (min limit items.length) σ).results

/-- Inductive invariant of the pool: sizes are fixed, written slots hold
the slot value, every in-range index below the cursor is written or
claimed by some worker, claims are in range and below the cursor, the
invocation trace is exactly the claimed prefix of indices in order, and
all workers can only have retired once the cursor passed `n`. -/
structure MwcInv (g : ℕ → γ) (n w : ℕ) (s : MwcState γ) : Prop where
  hres : s.results.length = n
  hwork : s.workers.length = w
  hcorrect : ∀ j v, s.results[j]? = some (some v) → v = g j
  hcover : ∀ j, j < s.counter → j < n →
    s.results[j]? = some (some (g j)) ∨ ∃ k : ℕ, s.workers[k]? = some (WStatus.claimed j)
  hclaim : ∀ (k j : ℕ), s.workers[k]? = some (WStatus.claimed j) → j < s.counter ∧ j < n
  hinvoked : s.invoked = List.range (min s.counter n)
  hretire : (∀ st ∈ s.workers, st = WStatus.retired) → n ≤ s.counter

/-! ## Enrichment of one provider group -/

/-- The per-item fetch wrapper passed to `mapWithConcurrency` by the
backbone: `getFullMetadata` when the provider has that capability (its
result `none` models a caught throw, stored as `null`), else the match
passes through unchanged. -/
def wrapFetch (getFull : Option (Item → Option Item)) (m : Item) : Option Item :=
  match getFull with
  | some f => f m
  | none => some m

/-- One provider group's enrichment through the pool (`fullFetchPromises`
with `mapWithConcurrency` available): fetch the not-yet-full candidates,
drop the `null` results (`results.filter(Boolean)`), and append the
fetched items after the already-full ones. -/
def enrichGroupMwc (getFull : Option (Item → Option Item)) (limit : ℕ) (σ : List ℕ)
    (ms : List Item) : List Item :=
  ms.filter (fun m => m.fullFetched)
    ++ (mwcResults (ms.filter (fun m => !m.fullFetched)) (wrapFetch getFull) limit σ).filterMap
        (fun slot => slot.bind id)

/-- The sequential fallback path (provider without `mapWithConcurrency`):
already-full items first, then each remaining candidate fetched one at a
time, a throwing or null fetch skipping only that item; without
`getFullMetadata` candidates pass through unchanged. -/
def enrichGroupSeq (getFull : Option (Item → Option Item)) (ms : List Item) : List Item :=
  ms.filter (fun m => m.fullFetched)
    ++ (ms.filter (fun m => !m.fullFetched)).filterMap (wrapFetch getFull)

/-- C8 witness items: two candidates of one provider, neither
pre-fetched. -/
def w8a : Item := { id := some "1", title := some "a", provider := "p" }

/-- C8 witness sibling. -/
def w8b : Item := { id := some "2", title := some "b", provider := "p" }

/-- C8 witness fetcher: throws on the candidate with id 1, succeeds on
everything else. -/
def f8 : Item → Option Item :=
  fun m => if m.id == some "1" then none else some m

/-! ### Selection lemmas -/

theorem simLE_trans : ∀ a b c : Item, simLE a b → simLE b c → simLE a c := by
  intro a b c hab hbc
  simp only [simLE, decide_eq_true_eq] at *
  exact le_trans hbc hab

theorem simLE_total : ∀ a b : Item, simLE a b || simLE b a := by
  intro a b
  simp only [simLE, Bool.or_eq_true, decide_eq_true_eq]
  exact le_total _ _

theorem mem_objKeys {p : String} : ∀ {ks : List String}, p ∈ objKeys ks ↔ p ∈ ks := by
  intro ks
  induction ks using objKeys.induct with
  | case1 => simp [objKeys]
  | case2 x xs ih =>
    simp only [objKeys, List.mem_cons, ih, List.mem_filter]
    constructor
    · rintro (rfl | ⟨h, _⟩)
      · exact Or.inl rfl
      · exact Or.inr h
    · rintro (rfl | h)
      · exact Or.inl rfl
      · by_cases hpx : p = x
        · exact Or.inl hpx
        · exact Or.inr ⟨h, by simpa using hpx⟩

theorem objKeys_nodup : ∀ ks : List String, (objKeys ks).Nodup := by
  intro ks
  induction ks using objKeys.induct with
  | case1 => simp [objKeys]
  | case2 x xs ih =>
    simp only [objKeys, List.nodup_cons]
    refine ⟨?_, ih⟩
    intro hmem
    rw [mem_objKeys] at hmem
    have := (List.mem_filter.mp hmem).2
    simp at this

theorem mem_groupOf {l : List Item} {p : String} {x : Item} :
    x ∈ groupOf l p ↔ x ∈ l ∧ x.provider = p := by
  simp [groupOf, List.mem_filter]

theorem mem_sortSimDesc {g : List Item} {x : Item} :
    x ∈ sortSimDesc g ↔ x ∈ g := List.mem_mergeSort

theorem mem_capGroup_provider {mx : Option Int} {l : List Item} {p : String} {x : Item}
    (hx : x ∈ capGroup mx (groupOf l p)) : x.provider = p := by
  have hx' : x ∈ sortSimDesc (groupOf l p) := by
    unfold capGroup at hx
    split at hx
    · exact List.mem_of_mem_take hx
    · exact hx
  exact (mem_groupOf.mp (mem_sortSimDesc.mp hx')).2

/-- Filtering the flattened capped list down to one provider recovers
exactly that provider's capped group. -/
theorem filter_cappedList (cfg : Config) (l : List Item) (p : String) :
    (cappedList cfg l).filter (fun m => m.provider == p)
      = capGroup (cfg.maxResults p) (groupOf l p) := by
  unfold cappedList
  have hnd := objKeys_nodup (l.map (·.provider))
  have hmem : ∀ q, q ∈ providerKeys l ↔ q ∈ l.map (·.provider) := fun q => mem_objKeys
  -- if p never occurs in l, its group is empty and both sides are []
  by_cases hp : p ∈ providerKeys l
  · -- induction over the key list, using nodup to isolate the p-group
    have : ∀ ks : List String, ks.Nodup → p ∈ ks →
        (ks.flatMap (fun q => capGroup (cfg.maxResults q) (groupOf l q))).filter
            (fun m => m.provider == p)
          = capGroup (cfg.maxResults p) (groupOf l p) := by
      intro ks
      induction ks with
      | nil => intro _ h; simp at h
      | cons k ks ih =>
        intro hnd hmem'
        have hnd' := (List.nodup_cons.mp hnd).2
        have hk := (List.nodup_cons.mp hnd).1
        simp only [List.flatMap_cons, List.filter_append]
        by_cases hpk : p = k
        · subst hpk
          have h1 : (capGroup (cfg.maxResults p) (groupOf l p)).filter
              (fun m => m.provider == p) = capGroup (cfg.maxResults p) (groupOf l p) := by
            apply List.filter_eq_self.mpr
            intro a ha
            simpa using mem_capGroup_provider ha
          have h2 : (ks.flatMap (fun q => capGroup (cfg.maxResults q) (groupOf l q))).filter
              (fun m => m.provider == p) = [] := by
            apply List.filter_eq_nil_iff.mpr
            intro a ha
            rcases List.mem_flatMap.mp ha with ⟨q, hq, haq⟩
            have := mem_capGroup_provider haq
            simp only [beq_iff_eq, this]
            intro h
            exact hk (h ▸ hq)
          rw [h1, h2, List.append_nil]
        · have hmem'' : p ∈ ks := by
            rcases List.mem_cons.mp hmem' with h | h
            · exact absurd h hpk
            · exact h
          have h1 : (capGroup (cfg.maxResults k) (groupOf l k)).filter
              (fun m => m.provider == p) = [] := by
            apply List.filter_eq_nil_iff.mpr
            intro a ha
            have := mem_capGroup_provider ha
            simp only [beq_iff_eq, this]
            intro h
            exact hpk h.symm
          rw [h1, List.nil_append]
          exact ih hnd' hmem''
    exact this _ hnd hp
  · -- p has no occurrences: group empty, contributions empty
    have hgroup : groupOf l p = [] := by
      apply List.filter_eq_nil_iff.mpr
      intro a ha
      simp only [beq_iff_eq]
      intro h
      exact hp ((hmem p).mpr (List.mem_map.mpr ⟨a, ha, h⟩))
    rw [hgroup]
    have hcap : capGroup (cfg.maxResults p) ([] : List Item) = [] := by
      unfold capGroup sortSimDesc
      simp
    rw [hcap]
    apply List.filter_eq_nil_iff.mpr
    intro a ha
    rcases List.mem_flatMap.mp ha with ⟨q, hq, haq⟩
    have := mem_capGroup_provider haq
    simp only [beq_iff_eq, this]
    intro h
    subst h
    exact hp hq

/-- The selected candidates of one provider are exactly the top of that
provider's similarity-sorted group, truncated by the cap and then
thresholded. -/
theorem selectCandidates_filter (cfg : Config) (l : List Item) (p : String) :
    (selectCandidates cfg l).filter (fun m => m.provider == p)
      = (capGroup (cfg.maxResults p) (groupOf l p)).filter
          (fun m => decide (thresholdOf cfg ≤ m.similarity)) := by
  unfold selectCandidates
  rw [List.filter_comm, filter_cappedList]

theorem countP_groupOf (cfg : Config) (l : List Item) (p : String) :
    (groupOf l p).countP (fun m => decide (thresholdOf cfg ≤ m.similarity))
      = l.countP (fun m => m.provider == p && decide (thresholdOf cfg ≤ m.similarity)) := by
  unfold groupOf
  rw [List.countP_filter]
  apply List.countP_congr
  intro a _
  simp [Bool.and_comm]

theorem countP_sortSimDesc (cfg : Config) (g : List Item) :
    (sortSimDesc g).countP (fun m => decide (thresholdOf cfg ≤ m.similarity))
      = g.countP (fun m => decide (thresholdOf cfg ≤ m.similarity)) :=
  (List.mergeSort_perm g simLE).countP_eq _

/-- C1: the per-provider cap is enforced strictly and applied before the
global similarity threshold.  With `maxResults = mx` configured for
provider `p`: (i) when `mx > 0`, at most `mx` candidates of `p` survive
selection; (ii) when `mx > 0`, every surviving candidate of `p` has
similarity at least that of every entry the cap truncated away from `p`'s
similarity-sorted group (the kept candidates are the top-`mx` by
similarity descending); (iii) `mx = 0` (or unset, which also yields the
JS value 0) means unlimited: every above-threshold candidate of `p`
survives; (iv) with `mx = 1` and at least two candidates of `p` above
threshold, exactly one candidate of `p` survives selection. -/
theorem C1_per_provider_cap (cfg : Config) (l : List Item) (p : String) :
    (∀ mx : Int, cfg.maxResults p = some mx → 0 < mx →
        (selectCandidates cfg l).countP (fun m => m.provider == p) ≤ mx.toNat)
    ∧ (∀ mx : Int, cfg.maxResults p = some mx → 0 < mx →
        ∀ x ∈ selectCandidates cfg l, x.provider = p →
        ∀ y ∈ (sortSimDesc (groupOf l p)).drop mx.toNat, y.similarity ≤ x.similarity)
    ∧ ((cfg.maxResults p = some 0 ∨ cfg.maxResults p = none) →
        (selectCandidates cfg l).countP (fun m => m.provider == p)
        = l.countP (fun m => m.provider == p && decide (thresholdOf cfg ≤ m.similarity)))
    ∧ (cfg.maxResults p = some 1 →
        2 ≤ l.countP (fun m => m.provider == p && decide (thresholdOf cfg ≤ m.similarity))
        → (selectCandidates cfg l).countP (fun m => m.provider == p) = 1) := by
  have hcount : (selectCandidates cfg l).countP (fun m => m.provider == p)
      = ((capGroup (cfg.maxResults p) (groupOf l p)).filter
          (fun m => decide (thresholdOf cfg ≤ m.similarity))).length := by
    rw [List.countP_eq_length_filter, selectCandidates_filter]
  refine ⟨?_, ?_, ?_, ?_⟩
  · -- (i) count bound
    intro mx hmx hpos
    rw [hcount]
    have hcap : capGroup (cfg.maxResults p) (groupOf l p)
        = (sortSimDesc (groupOf l p)).take mx.toNat := by
      simp [capGroup, hmx, hpos]
    rw [hcap]
    exact le_trans (List.length_filter_le _ _) (List.length_take_le _ _)
  · -- (ii) kept candidates dominate everything the cap dropped
    intro mx hmx hpos x hx hxp y hy
    have hcap : capGroup (cfg.maxResults p) (groupOf l p)
        = (sortSimDesc (groupOf l p)).take mx.toNat := by
      simp [capGroup, hmx, hpos]
    have hxmem : x ∈ (selectCandidates cfg l).filter (fun m => m.provider == p) := by
      rw [List.mem_filter]
      exact ⟨hx, by simp [hxp]⟩
    rw [selectCandidates_filter, hcap] at hxmem
    have hxtake : x ∈ (sortSimDesc (groupOf l p)).take mx.toNat :=
      (List.mem_filter.mp hxmem).1
    have hsorted : (sortSimDesc (groupOf l p)).Pairwise (fun a b => simLE a b) :=
      List.sorted_mergeSort simLE_trans simLE_total _
    rw [← List.take_append_drop mx.toNat (sortSimDesc (groupOf l p))] at hsorted
    have := (List.pairwise_append.mp hsorted).2.2 x hxtake y hy
    simpa [simLE] using this
  · -- (iii) cap 0 or unset means unlimited
    intro h0
    have hcap : capGroup (cfg.maxResults p) (groupOf l p) = sortSimDesc (groupOf l p) := by
      rcases h0 with h0 | h0 <;> simp [capGroup, h0]
    rw [hcount, hcap, ← List.countP_eq_length_filter, countP_sortSimDesc, countP_groupOf]
  · -- (iv) cap 1 with two above-threshold candidates keeps exactly one
    intro hmx htwo
    have hcap : capGroup (cfg.maxResults p) (groupOf l p)
        = (sortSimDesc (groupOf l p)).take 1 := by
      norm_num [capGroup, hmx]
    rw [hcount, hcap]
    have htwo' : 2 ≤ (sortSimDesc (groupOf l p)).countP
        (fun m => decide (thresholdOf cfg ≤ m.similarity)) := by
      rw [countP_sortSimDesc, countP_groupOf]
      exact htwo
    rcases hsd : sortSimDesc (groupOf l p) with _ | ⟨hd, tl⟩
    · rw [hsd] at htwo'; simp at htwo'
    · have hpos : 0 < (sortSimDesc (groupOf l p)).countP
          (fun m => decide (thresholdOf cfg ≤ m.similarity)) := lt_of_lt_of_le (by norm_num) htwo'
      rcases List.countP_pos_iff.mp hpos with ⟨a, ha, hpa⟩
      have hsorted : (sortSimDesc (groupOf l p)).Pairwise (fun a b => simLE a b) :=
        List.sorted_mergeSort simLE_trans simLE_total _
      rw [hsd] at ha hsorted
      have hhd : decide (thresholdOf cfg ≤ hd.similarity) = true := by
        rcases List.mem_cons.mp ha with rfl | hat
        · exact hpa
        · have hle := (List.pairwise_cons.mp hsorted).1 a hat
          simp only [simLE, decide_eq_true_eq] at hle hpa ⊢
          exact le_trans hpa hle
      simp [hhd]

theorem C1_per_provider_cap_witness :
    (selectCandidates c1cfg c1list).countP (fun m => m.provider == "provA") = 1 :=
  (C1_per_provider_cap c1cfg c1list "provA").2.2.2 rfl (by decide)

/-! ### Scoring lemmas -/

theorem le_listMaxQ_init (x : ℚ) : ∀ l : List ℚ, x ≤ listMaxQ x l := by
  intro l
  induction l generalizing x with
  | nil => exact le_refl x
  | cons y ys ih => exact le_trans (le_max_left x y) (ih (max x y))

theorem le_listMaxQ_mem {a : ℚ} (x : ℚ) :
    ∀ l : List ℚ, a ∈ l → a ≤ listMaxQ x l := by
  intro l
  induction l generalizing x with
  | nil => intro h; simp at h
  | cons y ys ih =>
    intro h
    rcases List.mem_cons.mp h with rfl | h'
    · exact le_trans (le_max_right x a) (le_listMaxQ_init _ ys)
    · exact ih (max x y) h'

theorem listMaxQ_eq_init_or_mem (x : ℚ) :
    ∀ l : List ℚ, listMaxQ x l = x ∨ ∃ a ∈ l, listMaxQ x l = a := by
  intro l
  induction l generalizing x with
  | nil => exact Or.inl rfl
  | cons y ys ih =>
    rcases ih (max x y) with h | ⟨a, ha, h⟩
    · rcases max_choice x y with hm | hm
      · exact Or.inl (by rw [listMaxQ, h, hm])
      · exact Or.inr ⟨y, List.mem_cons_self _ _, by rw [listMaxQ, h, hm]⟩
    · exact Or.inr ⟨a, List.mem_cons_of_mem _ ha, by rw [listMaxQ, h]⟩

theorem bestAuthorSim_ge (sim : String → String → ℚ) (ca : String)
    {authors : List String} {a : String} (ha : a ∈ authors) :
    sim a.toLower ca ≤ bestAuthorSim sim ca authors := by
  cases authors with
  | nil => simp at ha
  | cons b bs =>
    rcases List.mem_cons.mp ha with rfl | ha'
    · exact le_listMaxQ_init _ _
    · exact le_listMaxQ_mem _ _ (List.mem_map.mpr ⟨a, ha', rfl⟩)

theorem bestAuthorSim_mem (sim : String → String → ℚ) (ca : String)
    {authors : List String} (h : authors ≠ []) :
    ∃ a ∈ authors, bestAuthorSim sim ca authors = sim a.toLower ca := by
  cases authors with
  | nil => exact absurd rfl h
  | cons b bs =>
    rcases listMaxQ_eq_init_or_mem (sim b.toLower ca) (bs.map (fun x => sim x.toLower ca))
      with heq | ⟨v, hv, heq⟩
    · exact ⟨b, List.mem_cons_self _ _, heq⟩
    · rcases List.mem_map.mp hv with ⟨a, ha, rfl⟩
      exact ⟨a, List.mem_cons_of_mem _ ha, heq⟩

/-- C2: the similarity score equals the lowercased-title similarity when
the cleaned author is empty or the snippet has no authors; otherwise it
is the weighted blend `titleWeight * titleSim + (1 - titleWeight) *
authorSim` where `authorSim` is the maximum author similarity over the
snippet's lowercased authors; the configured weight is the 0-100 value
divided by 100 with default 0.6; and a missing title is scored exactly
like an empty-string title (scoring is total, it never throws). -/
theorem C2_scoring_formula (sim : String → String → ℚ) (tw : ℚ) (cq ca : String) (m : Item) :
    ((ca = "" ∨ m.authors = []) →
      scoreItem sim tw cq ca m = sim ((m.title.getD "").toLower) cq)
    ∧ (ca ≠ "" → m.authors ≠ [] →
        scoreItem sim tw cq ca m
          = tw * sim ((m.title.getD "").toLower) cq
            + (1 - tw) * bestAuthorSim sim ca m.authors
        ∧ (∀ a ∈ m.authors, sim a.toLower ca ≤ bestAuthorSim sim ca m.authors)
        ∧ (∃ a ∈ m.authors, bestAuthorSim sim ca m.authors = sim a.toLower ca))
    ∧ (m.title = none →
        scoreItem sim tw cq ca m = scoreItem sim tw cq ca { m with title := some "" })
    ∧ (∀ w : ℚ, titleWeightOf (some w) = w / 100) ∧ titleWeightOf none = 3 / 5 := by
  refine ⟨?_, ?_, ?_, fun w => rfl, rfl⟩
  · intro h
    unfold scoreItem
    rcases h with h | h <;> simp [h]
  · intro hca hau
    refine ⟨?_, fun a ha => bestAuthorSim_ge sim ca ha, bestAuthorSim_mem sim ca hau⟩
    unfold scoreItem
    rw [if_pos ⟨hca, hau⟩]
    ring
  · intro h
    unfold scoreItem
    simp [h]

theorem C2_scoring_formula_witness :
    scoreItem eqSim (titleWeightOf (some 60)) "foundation" "" c2item
      = eqSim ((c2item.title.getD "").toLower) "foundation"
    ∧ scoreItem eqSim (titleWeightOf (some 60)) "foundation" "asimov" c2item
      = titleWeightOf (some 60) * eqSim ((c2item.title.getD "").toLower) "foundation"
        + (1 - titleWeightOf (some 60)) * bestAuthorSim eqSim "asimov" c2item.authors :=
  ⟨(C2_scoring_formula eqSim (titleWeightOf (some 60)) "foundation" "" c2item).1 (Or.inl rfl),
   ((C2_scoring_formula eqSim (titleWeightOf (some 60)) "foundation" "asimov" c2item).2.1
      (by decide) (by decide)).1⟩

theorem scoreItem_bounds (sim : String → String → ℚ)
    (hsim : ∀ a b, 0 ≤ sim a b ∧ sim a b ≤ 1)
    (t : ℚ) (htw0 : 0 ≤ t) (htw1 : t ≤ 1) (cq ca : String) (m : Item) :
    0 ≤ scoreItem sim t cq ca m ∧ scoreItem sim t cq ca m ≤ 1 := by
  unfold scoreItem
  split
  · rename_i hcond
    have hbest : 0 ≤ bestAuthorSim sim ca m.authors
        ∧ bestAuthorSim sim ca m.authors ≤ 1 := by
      rcases bestAuthorSim_mem sim ca hcond.2 with ⟨a, _, heq⟩
      rw [heq]
      exact hsim _ _
    have htitle := hsim ((m.title.getD "").toLower) cq
    constructor
    · have h1 : 0 ≤ sim ((m.title.getD "").toLower) cq * t := mul_nonneg htitle.1 htw0
      have h2 : 0 ≤ bestAuthorSim sim ca m.authors * (1 - t) :=
        mul_nonneg hbest.1 (by linarith)
      linarith
    · have h1 : sim ((m.title.getD "").toLower) cq * t ≤ t :=
        mul_le_of_le_one_left htw0 htitle.2
      have h2 : bestAuthorSim sim ca m.authors * (1 - t) ≤ 1 - t :=
        mul_le_of_le_one_left (by linarith) hbest.2
      linarith
  · exact hsim _ _

/-- C3: with a configured title weight in `[0,100]` (or the default
0.6 used when none is configured) and a string metric with range in
`[0,1]`, every computed similarity lies in `[0,1]`, and the lubimyczytac
0.99 missing-ISBN penalty preserves that range. -/
theorem C3_similarity_bounds (sim : String → String → ℚ)
    (hsim : ∀ a b, 0 ≤ sim a b ∧ sim a b ≤ 1)
    (w : ℚ) (hw0 : 0 ≤ w) (hw100 : w ≤ 100) (cq ca : String) (m : Item) :
    (0 ≤ scoreItem sim (titleWeightOf (some w)) cq ca m
      ∧ scoreItem sim (titleWeightOf (some w)) cq ca m ≤ 1)
    ∧ (0 ≤ scoreItem sim (titleWeightOf none) cq ca m
      ∧ scoreItem sim (titleWeightOf none) cq ca m ≤ 1)
    ∧ (∀ x : Item, 0 ≤ x.similarity → x.similarity ≤ 1 →
        0 ≤ adjustedSimilarity x ∧ adjustedSimilarity x ≤ 1) := by
  refine ⟨?_, ?_, ?_⟩
  · apply scoreItem_bounds sim hsim
    · unfold titleWeightOf
      positivity
    · unfold titleWeightOf
      rw [div_le_one (by norm_num)]
      exact hw100
  · apply scoreItem_bounds sim hsim
    · norm_num [titleWeightOf]
    · norm_num [titleWeightOf]
  · intro x hx0 hx1
    unfold adjustedSimilarity
    split
    · constructor
      · positivity
      · nlinarith
    · exact ⟨hx0, hx1⟩

theorem C3_similarity_bounds_witness :
    0 ≤ scoreItem eqSim (titleWeightOf (some 60)) "q" "a" c2item
    ∧ scoreItem eqSim (titleWeightOf (some 60)) "q" "a" c2item ≤ 1 :=
  (C3_similarity_bounds eqSim
    (fun a b => by unfold eqSim; split <;> norm_num)
    60 (by norm_num) (by norm_num) "q" "a" c2item).1

/-! ### Ranking lemmas -/

theorem rankLE_eq (a b : Item) : rankLE a b = true ↔
    (b.similarity < a.similarity
      ∨ (a.similarity = b.similarity
          ∧ (audioVal b < audioVal a
              ∨ (audioVal a = audioVal b ∧ priOf b ≤ priOf a)))) := by
  unfold rankLE
  by_cases h1 : a.similarity = b.similarity
  · by_cases h2 : audioVal a = audioVal b
    · rw [if_neg (by simp [h1]), if_neg (by simp [h2])]
      simp [h1, h2]
    · rw [if_neg (by simp [h1]), if_pos h2]
      simp [h1, h2]
  · rw [if_pos h1]
    simp only [decide_eq_true_eq]
    constructor
    · exact fun h => Or.inl h
    · rintro (h | ⟨heq, -⟩)
      · exact h
      · exact absurd heq h1

theorem rankLE_refl (a : Item) : rankLE a a = true :=
  (rankLE_eq a a).mpr (Or.inr ⟨rfl, Or.inr ⟨rfl, le_refl _⟩⟩)

theorem rankLE_trans : ∀ a b c : Item, rankLE a b → rankLE b c → rankLE a c := by
  intro a b c h1 h2
  rw [rankLE_eq] at h1 h2 ⊢
  rcases h1 with h1 | ⟨e1, h1⟩ <;> rcases h2 with h2 | ⟨e2, h2⟩
  · exact Or.inl (lt_trans h2 h1)
  · exact Or.inl (by rw [e2] at h1; exact h1)
  · exact Or.inl (by rw [e1]; exact h2)
  · refine Or.inr ⟨e1.trans e2, ?_⟩
    rcases h1 with h1 | ⟨f1, h1⟩ <;> rcases h2 with h2 | ⟨f2, h2⟩
    · exact Or.inl (lt_trans h2 h1)
    · exact Or.inl (by rw [f2] at h1; exact h1)
    · exact Or.inl (by rw [f1]; exact h2)
    · exact Or.inr ⟨f1.trans f2, le_trans h2 h1⟩

theorem rankLE_total : ∀ a b : Item, rankLE a b || rankLE b a := by
  intro a b
  rw [Bool.or_eq_true, rankLE_eq, rankLE_eq]
  rcases lt_trichotomy b.similarity a.similarity with h | h | h
  · exact Or.inl (Or.inl h)
  · rcases lt_trichotomy (audioVal b) (audioVal a) with h' | h' | h'
    · exact Or.inl (Or.inr ⟨h.symm, Or.inl h'⟩)
    · rcases le_total (priOf b) (priOf a) with h'' | h''
      · exact Or.inl (Or.inr ⟨h.symm, Or.inr ⟨h'.symm, h''⟩⟩)
      · exact Or.inr (Or.inr ⟨h, Or.inr ⟨h', h''⟩⟩)
    · exact Or.inr (Or.inr ⟨h, Or.inl h'⟩)
  · exact Or.inr (Or.inl h)

theorem rankLE_antisymm_key {x y : Item}
    (h1 : rankLE x y = true) (h2 : rankLE y x = true) : rkey x = rkey y := by
  rw [rankLE_eq] at h1 h2
  unfold rkey
  rcases h1 with h1 | ⟨e1, h1⟩
  · rcases h2 with h2 | ⟨e2, -⟩
    · exact absurd (lt_trans h1 h2) (lt_irrefl _)
    · exact absurd h1 (by rw [e2]; exact lt_irrefl _)
  · rcases h2 with h2 | ⟨-, h2⟩
    · exact absurd h2 (by rw [e1]; exact lt_irrefl _)
    · rcases h1 with h1 | ⟨f1, h1⟩
      · rcases h2 with h2 | ⟨f2, -⟩
        · exact absurd (lt_trans h1 h2) (lt_irrefl _)
        · exact absurd h1 (by rw [f2]; exact lt_irrefl _)
      · rcases h2 with h2 | ⟨-, h2⟩
        · exact absurd h2 (by rw [f1]; exact lt_irrefl _)
        · have hpri : priOf x = priOf y := le_antisymm h2 h1
          rw [e1, f1, hpri]

theorem sorted_perm_eq_of_injKeys :
    ∀ (m₁ m₂ : List Item), m₁.Perm m₂ →
      m₁.Pairwise (fun a b => rankLE a b = true) →
      m₂.Pairwise (fun a b => rankLE a b = true) →
      (∀ x ∈ m₁, ∀ y ∈ m₁, rkey x = rkey y → x = y) → m₁ = m₂ := by
  intro m₁
  induction m₁ with
  | nil =>
    intro m₂ hp _ _ _
    exact (hp.symm.eq_nil).symm
  | cons x xs ih =>
    intro m₂ hp hs₁ hs₂ hinj
    cases m₂ with
    | nil => exact absurd hp.eq_nil (by simp)
    | cons y ys =>
      have hx2 : x ∈ y :: ys := hp.mem_iff.mp (List.mem_cons_self _ _)
      have hy1 : y ∈ x :: xs := hp.mem_iff.mpr (List.mem_cons_self _ _)
      have hxy : rankLE x y = true := by
        rcases List.mem_cons.mp hy1 with heq | h
        · rw [heq]; exact rankLE_refl x
        · exact (List.pairwise_cons.mp hs₁).1 y h
      have hyx : rankLE y x = true := by
        rcases List.mem_cons.mp hx2 with heq | h
        · rw [heq]; exact rankLE_refl y
        · exact (List.pairwise_cons.mp hs₂).1 x h
      have hkey : rkey x = rkey y := rankLE_antisymm_key hxy hyx
      have heq : x = y := hinj x (List.mem_cons_self _ _) y hy1 hkey
      subst heq
      have htail : xs = ys :=
        ih ys hp.cons_inv (List.pairwise_cons.mp hs₁).2 (List.pairwise_cons.mp hs₂).2
          (fun a ha b hb => hinj a (List.mem_cons_of_mem _ ha) b (List.mem_cons_of_mem _ hb))
      rw [htail]

/-- C7 counterexample: ranking is NOT invariant under permuting the
input.  Two items fully tied on all three comparator keys come out in
input order (the sort is stable), so swapping them swaps the output. -/
theorem C7_reorder_counterexample :
    List.Perm [c7x, c7y] [c7y, c7x] ∧ rank [c7x, c7y] ≠ rank [c7y, c7x] := by
  refine ⟨List.Perm.swap c7y c7x [], ?_⟩
  have h1 : rank [c7x, c7y] = [c7x, c7y] := List.mergeSort_of_sorted (by decide)
  have h2 : rank [c7y, c7x] = [c7y, c7x] := List.mergeSort_of_sorted (by decide)
  rw [h1, h2]
  decide

/-- C7 (amended): ranking is a pure deterministic stable sort by the
three-key comparator: the output is sorted by the comparator, is a
permutation of the input, keeps comparator-ordered pairs in input order
(stability), and is invariant under input reordering whenever no two
distinct inputs are tied on all three keys (the unrestricted
reorder-invariance claimed originally fails, see the counterexample). -/
theorem C7_ranking_stable_sort (l : List Item) :
    (rank l).Pairwise (fun a b => rankLE a b = true)
    ∧ (rank l).Perm l
    ∧ (∀ a b : Item, rankLE a b = true → [a, b].Sublist l → [a, b].Sublist (rank l))
    ∧ (∀ l₂ : List Item, l.Perm l₂ →
        (∀ x ∈ l, ∀ y ∈ l, rkey x = rkey y → x = y) → rank l = rank l₂) := by
  refine ⟨List.sorted_mergeSort rankLE_trans rankLE_total l, List.mergeSort_perm l _, ?_, ?_⟩
  · intro a b hab hsub
    exact List.pair_sublist_mergeSort rankLE_trans rankLE_total hab hsub
  · intro l₂ hperm hinj
    apply sorted_perm_eq_of_injKeys
    · exact ((List.mergeSort_perm l _).trans hperm).trans (List.mergeSort_perm l₂ _).symm
    · exact List.sorted_mergeSort rankLE_trans rankLE_total l
    · exact List.sorted_mergeSort rankLE_trans rankLE_total l₂
    · intro x hx y hy
      exact hinj x (List.mem_mergeSort.mp hx) y (List.mem_mergeSort.mp hy)

theorem C7_ranking_stable_sort_witness :
    rank [c7x, c7z] = rank [c7z, c7x] :=
  (C7_ranking_stable_sort [c7x, c7z]).2.2.2 [c7z, c7x] (List.Perm.swap c7z c7x [])
    (by decide)

/-! ### Merge lemmas -/

theorem find?_split {α : Type} (p : α → Bool) :
    ∀ (l : List α) (c : α), l.find? p = some c →
      p c = true ∧ ∃ pre post, l = pre ++ c :: post ∧ ∀ x ∈ pre, p x = false := by
  intro l
  induction l with
  | nil => intro c h; simp at h
  | cons a as ih =>
    intro c h
    by_cases hpa : p a = true
    · rw [List.find?_cons_of_pos _ hpa] at h
      have ha : a = c := by injection h
      subst ha
      exact ⟨hpa, [], as, rfl, by simp⟩
    · rw [List.find?_cons_of_neg _ (by simpa using hpa)] at h
      obtain ⟨hc, pre, post, heq, hpre⟩ := ih c h
      refine ⟨hc, a :: pre, post, by rw [heq]; rfl, ?_⟩
      intro x hx
      rcases List.mem_cons.mp hx with rfl | hx'
      · simpa using hpa
      · exact hpre x hx'

theorem mergeStep_eq_self_or_cons (en : Bool) (prefs : String → Option String)
    (fr : List Item) :
    mergeStep en prefs fr = fr
    ∨ ∃ top rest, fr = top :: rest ∧ en = true
        ∧ 1 < (tieGroupOf fr top).length
        ∧ mergeStep en prefs fr
            = buildMerged prefs (tieGroupOf fr top) top.similarity :: fr := by
  match fr with
  | [] => exact Or.inl rfl
  | top :: rest =>
    simp only [mergeStep]
    by_cases h1 : en = true
    · subst h1
      rw [if_pos rfl]
      by_cases h2 : 1 < (tieGroupOf (top :: rest) top).length
      · rw [if_pos h2]
        by_cases h3 : (sameTitleAuthors top
              (buildMerged prefs (tieGroupOf (top :: rest) top) top.similarity)
            && topHasAllMergedFields top
              (buildMerged prefs (tieGroupOf (top :: rest) top) top.similarity)) = true
        · rw [if_pos h3]
          exact Or.inl rfl
        · rw [if_neg h3]
          exact Or.inr ⟨top, rest, rfl, rfl, h2, rfl⟩
      · rw [if_neg h2]
        exact Or.inl rfl
    · rw [if_neg h1]
      exact Or.inl rfl

theorem countP_merged_rank_zero (l : List Item)
    (hnm : ∀ r ∈ l, r.provider ≠ "merged") :
    (rank l).countP (fun r => r.provider == "merged") = 0 := by
  rw [List.countP_eq_zero]
  intro a ha
  simpa using hnm a (List.mem_mergeSort.mp ha)

/-- C4: the merge only fires on a top tie of at least two: with merging
disabled, or when fewer than two ranked results lie within `EPS` of the
top similarity (which is the maximum similarity, as the first conjunct
states), the output contains no record tagged `_provider = "merged"`;
and in every case at most one merged record is prepended. -/
theorem C4_merge_tie_gate (en : Bool) (prefs : String → Option String) (l : List Item)
    (hnm : ∀ r ∈ l, r.provider ≠ "merged") :
    (∀ top rest, rank l = top :: rest →
      (∀ r ∈ l, r.similarity ≤ top.similarity)
      ∧ ((en = false
            ∨ (rank l).countP (fun r => decide (|r.similarity - top.similarity| ≤ EPS)) < 2) →
          (mergeStep en prefs (rank l)).countP (fun r => r.provider == "merged") = 0))
    ∧ (mergeStep en prefs (rank l)).countP (fun r => r.provider == "merged") ≤ 1 := by
  have hzero := countP_merged_rank_zero l hnm
  constructor
  · intro top rest hr
    constructor
    · intro r hrl
      have hmem : r ∈ rank l := List.mem_mergeSort.mpr hrl
      have hsorted : (rank l).Pairwise (fun a b => rankLE a b = true) :=
        List.sorted_mergeSort rankLE_trans rankLE_total l
      rw [hr] at hmem hsorted
      rcases List.mem_cons.mp hmem with rfl | hrest
      · exact le_refl _
      · have hle := (List.pairwise_cons.mp hsorted).1 r hrest
        rw [rankLE_eq] at hle
        rcases hle with h | ⟨h, -⟩
        · exact le_of_lt h
        · exact le_of_eq h.symm
    · intro hc
      rcases mergeStep_eq_self_or_cons en prefs (rank l) with h | ⟨top', rest', hfr, hen, hlen, h⟩
      · rw [h]
        exact hzero
      · -- a merge would need a tie of ≥ 2, contradicting the hypothesis
        exfalso
        have htt : top = top' := by
          rw [hr] at hfr
          injection hfr
        rw [← htt] at hlen
        rcases hc with hc | hc
        · rw [hen] at hc
          cases hc
        · rw [List.countP_eq_length_filter] at hc
          unfold tieGroupOf at hlen
          omega
  · rcases mergeStep_eq_self_or_cons en prefs (rank l) with h | ⟨top, rest, hfr, -, -, h⟩
    · rw [h, hzero]
      exact Nat.zero_le 1
    · rw [h, List.countP_cons, hzero]
      split <;> norm_num

theorem C4_merge_tie_gate_witness :
    (mergeStep true noPrefs (rank [c7x])).countP (fun r => r.provider == "merged") = 0 := by
  have hr : rank [c7x] = [c7x] := by simp [rank]
  exact ((C4_merge_tie_gate true noPrefs [c7x] (by decide)).1 c7x [] hr).2
    (Or.inr (by rw [hr]; decide))

theorem resolutionLE_eq (a b : Item) : resolutionLE a b = true ↔
    (priOf b < priOf a ∨ (priOf a = priOf b ∧ countNonEmpty b ≤ countNonEmpty a)) := by
  unfold resolutionLE
  by_cases h : priOf a = priOf b
  · rw [if_neg (by simp [h])]
    simp [h]
  · rw [if_pos h]
    simp only [decide_eq_true_eq]
    constructor
    · exact fun h' => Or.inl h'
    · rintro (h' | ⟨he, -⟩)
      · exact h'
      · exact absurd he h

theorem resolutionLE_trans : ∀ a b c : Item,
    resolutionLE a b → resolutionLE b c → resolutionLE a c := by
  intro a b c h1 h2
  rw [resolutionLE_eq] at h1 h2 ⊢
  rcases h1 with h1 | ⟨e1, h1⟩ <;> rcases h2 with h2 | ⟨e2, h2⟩
  · exact Or.inl (lt_trans h2 h1)
  · exact Or.inl (by rw [e2] at h1; exact h1)
  · exact Or.inl (by rw [e1]; exact h2)
  · exact Or.inr ⟨e1.trans e2, le_trans h2 h1⟩

theorem resolutionLE_total : ∀ a b : Item, resolutionLE a b || resolutionLE b a := by
  intro a b
  rw [Bool.or_eq_true, resolutionLE_eq, resolutionLE_eq]
  rcases lt_trichotomy (priOf b) (priOf a) with h | h | h
  · exact Or.inl (Or.inl h)
  · rcases le_total (countNonEmpty b) (countNonEmpty a) with h' | h'
    · exact Or.inl (Or.inr ⟨h.symm, h'⟩)
    · exact Or.inr (Or.inr ⟨h, h'⟩)
  · exact Or.inr (Or.inl h)

/-- C5: merge field resolution for single-valued fields.  (i) the
resolution order is the tie group sorted by provider priority descending
then non-empty-field count descending; (ii) when a preferred provider is
configured for the field and some member from that provider has a
non-empty value, the pick takes the first such member's value and
records the preferred provider as source; (iii) without a usable
preference the first member in resolution order holding the field
contributes, recorded as source; (iv) when nobody has the field the pick
is empty; (v) concretely, with tied providers A (priority 10, no cover)
and B (priority 5, with cover) and `mergePreferences.cover = "B"`, the
merged cover value and source come from B. -/
theorem C5_merge_field_preference (prefs : String → Option String) (f : String)
    (get : Item → Option String) (sg : List Item) :
    ((sortedGroupOf sg).Pairwise (fun a b => resolutionLE a b = true)
      ∧ (sortedGroupOf sg).Perm sg)
    ∧ (∀ pref, prefs f = some pref →
        (∃ i ∈ sg, i.provider = pref ∧ hasField i f = true) →
        ∃ p pre post, sg = pre ++ p :: post
          ∧ p.provider = pref ∧ hasField p f = true
          ∧ (∀ q ∈ pre, ¬(q.provider = pref ∧ hasField q f = true))
          ∧ pickStrField prefs f get sg = (get p, some pref))
    ∧ (prefs f = none →
        (∃ i ∈ sg, hasField i f = true) →
        ∃ c pre post, sg = pre ++ c :: post
          ∧ hasField c f = true ∧ (∀ q ∈ pre, hasField q f = false)
          ∧ pickStrField prefs f get sg = (get c, some c.provider))
    ∧ ((∀ i ∈ sg, hasField i f = false) → pickStrField prefs f get sg = (none, none))
    ∧ coverValueSource prefsCover (sortedGroupOf [c5A, c5B])
        = (some "https://b/cover.jpg", some "B")
    ∧ coverValueSource prefsCover (sortedGroupOf [c5A2, c5B])
        = (some "https://b/cover.jpg", some "B") := by
  refine ⟨⟨List.sorted_mergeSort resolutionLE_trans resolutionLE_total sg,
      List.mergeSort_perm sg _⟩, ?_, ?_, ?_, ?_, ?_⟩
  · intro pref hpf hex
    have hfs : (sg.find? (fun i => i.provider == pref && hasField i f)).isSome := by
      rw [List.find?_isSome]
      rcases hex with ⟨i, hi, hip, hif⟩
      exact ⟨i, hi, by simp [hip, hif]⟩
    rcases Option.isSome_iff_exists.mp hfs with ⟨p, hp⟩
    obtain ⟨hpred, pre, post, hsplit, hpre⟩ := find?_split _ sg p hp
    rw [Bool.and_eq_true, beq_iff_eq] at hpred
    refine ⟨p, pre, post, hsplit, hpred.1, hpred.2, ?_, ?_⟩
    · intro q hq hcontra
      have := hpre q hq
      simp [hcontra.1, hcontra.2] at this
    · simp only [pickStrField, pickContributor, hpf, hp]
  · intro hpf hex
    have hfs : (sg.find? (fun i => hasField i f)).isSome := by
      rw [List.find?_isSome]
      rcases hex with ⟨i, hi, hif⟩
      exact ⟨i, hi, hif⟩
    rcases Option.isSome_iff_exists.mp hfs with ⟨c, hc⟩
    obtain ⟨hpred, pre, post, hsplit, hpre⟩ := find?_split _ sg c hc
    refine ⟨c, pre, post, hsplit, hpred, hpre, ?_⟩
    simp only [pickStrField, pickContributor, pickNoPref, hpf, hc]
  · intro hnone
    have h1 : sg.find? (fun i => hasField i f) = none := by
      rw [List.find?_eq_none]
      intro x hx
      simp [hnone x hx]
    cases hpf : prefs f with
    | none => simp only [pickStrField, pickContributor, pickNoPref, hpf, h1]
    | some pref =>
      have h2 : sg.find? (fun i => i.provider == pref && hasField i f) = none := by
        rw [List.find?_eq_none]
        intro x hx
        simp [hnone x hx]
      simp only [pickStrField, pickContributor, pickNoPref, hpf, h2, h1]
  · rw [show sortedGroupOf [c5A, c5B] = [c5A, c5B] from
      List.mergeSort_of_sorted (by decide)]
    decide
  · rw [show sortedGroupOf [c5A2, c5B] = [c5A2, c5B] from
      List.mergeSort_of_sorted (by decide)]
    decide

theorem C5_merge_field_preference_witness :
    ∃ p pre post, [c5A, c5B] = pre ++ p :: post
      ∧ p.provider = "B" ∧ hasField p "cover" = true
      ∧ (∀ q ∈ pre, ¬(q.provider = "B" ∧ hasField q "cover" = true))
      ∧ pickStrField prefsCover "cover" (fun i => i.cover) [c5A, c5B]
          = (p.cover, some "B") :=
  (C5_merge_field_preference prefsCover "cover" (fun i => i.cover) [c5A, c5B]).2.1 "B" rfl
    ⟨c5B, by decide, by decide, by decide⟩

theorem topHasAll_eq_claim (top m : Item) (idl : List (String × String))
    (hm : m.identifiers = some idl) :
    topHasAllMergedFields top m
      = (claimTopHasAllContributedFields top m
          && !(top.identifiers.getD []).isEmpty) := by
  unfold topHasAllMergedFields claimTopHasAllContributedFields
  rw [hm]
  by_cases hl : idl.isEmpty <;>
    cases ht : (top.identifiers.getD []).isEmpty <;>
      simp [hl, ht, Bool.and_assoc]

/-- C6 counterexample: with two tied results that agree on title and
authors, carry no identifiers and contribute nothing else, the claim's
suppression condition holds (same title/authors and the top has every
contributed field), yet the code prepends the synthetic record because
the merged identifiers object is truthy even when empty and the top has
no identifiers. -/
theorem C6_counterexample :
    sameTitleAuthors c6x
        (buildMerged noPrefs (tieGroupOf [c6x, c6y] c6x) c6x.similarity) = true
    ∧ claimTopHasAllContributedFields c6x
        (buildMerged noPrefs (tieGroupOf [c6x, c6y] c6x) c6x.similarity) = true
    ∧ (mergeStep true noPrefs [c6x, c6y]).head?.map (fun r => r.provider)
        = some "merged" := by
  have hfil : tieGroupOf [c6x, c6y] c6x = [c6x, c6y] := by decide
  have hsg : sortedGroupOf [c6x, c6y] = [c6x, c6y] :=
    List.mergeSort_of_sorted (by decide)
  have hbm : buildMerged noPrefs (tieGroupOf [c6x, c6y] c6x) c6x.similarity
      = buildMergedSorted noPrefs [c6x, c6y] [c6x, c6y] c6x.similarity := by
    rw [hfil, buildMerged, hsg]
  refine ⟨?_, ?_, ?_⟩
  · rw [hbm]; decide
  · rw [hbm]; decide
  · simp only [mergeStep]
    rw [if_true, hfil]
    rw [if_pos (by decide : 1 < ([c6x, c6y] : List Item).length)]
    rw [show buildMerged noPrefs [c6x, c6y] c6x.similarity
        = buildMergedSorted noPrefs [c6x, c6y] [c6x, c6y] c6x.similarity from by
      rw [buildMerged, hsg]]
    rw [if_neg (by decide)]
    decide

/-- C6 (amended): with merging enabled and a top tie group of at least
two, the synthetic record is discarded exactly when it has the same
title and ordered authors as the top organic result, the top result has
a non-empty value for every field the merge contributes among narrator,
description, cover, languages, identifiers, genres and tags, and
additionally the top result has a non-empty identifiers map — the code
requires the latter even when the merged identifiers map is empty,
because the synthetic record always carries an identifiers object and
objects are truthy in JS; otherwise the synthetic record is prepended. -/
theorem C6_redundancy_suppression (prefs : String → Option String)
    (fr : List Item) (top : Item) (rest : List Item) (hfr : fr = top :: rest)
    (htie : 1 < (tieGroupOf fr top).length) :
    (mergeStep true prefs fr = fr ↔
      (sameTitleAuthors top (buildMerged prefs (tieGroupOf fr top) top.similarity) = true
        ∧ claimTopHasAllContributedFields top
            (buildMerged prefs (tieGroupOf fr top) top.similarity) = true
        ∧ (top.identifiers.getD []) ≠ []))
    ∧ (¬(sameTitleAuthors top (buildMerged prefs (tieGroupOf fr top) top.similarity) = true
          ∧ claimTopHasAllContributedFields top
              (buildMerged prefs (tieGroupOf fr top) top.similarity) = true
          ∧ (top.identifiers.getD []) ≠ []) →
        mergeStep true prefs fr
          = buildMerged prefs (tieGroupOf fr top) top.similarity :: fr) := by
  subst hfr
  have hident : (buildMerged prefs (tieGroupOf (top :: rest) top) top.similarity).identifiers
      = some (mergeIdentifiers (sortedGroupOf (tieGroupOf (top :: rest) top))) := rfl
  have hta := topHasAll_eq_claim top
    (buildMerged prefs (tieGroupOf (top :: rest) top) top.similarity) _ hident
  simp only [mergeStep]
  rw [if_true, if_pos htie]
  by_cases hb : (sameTitleAuthors top
        (buildMerged prefs (tieGroupOf (top :: rest) top) top.similarity)
      && topHasAllMergedFields top
        (buildMerged prefs (tieGroupOf (top :: rest) top) top.similarity)) = true
  · rw [if_pos hb]
    have hcond : sameTitleAuthors top
          (buildMerged prefs (tieGroupOf (top :: rest) top) top.similarity) = true
        ∧ claimTopHasAllContributedFields top
            (buildMerged prefs (tieGroupOf (top :: rest) top) top.similarity) = true
        ∧ (top.identifiers.getD []) ≠ [] := by
      rw [Bool.and_eq_true, hta, Bool.and_eq_true] at hb
      refine ⟨hb.1, hb.2.1, ?_⟩
      simpa using hb.2.2
    exact ⟨⟨fun _ => hcond, fun _ => rfl⟩, fun hc => absurd hcond hc⟩
  · rw [if_neg hb]
    constructor
    · constructor
      · intro habs
        have := congrArg List.length habs
        simp at this
      · intro hcond
        exfalso
        apply hb
        rw [Bool.and_eq_true, hta, Bool.and_eq_true]
        refine ⟨hcond.1, hcond.2.1, ?_⟩
        simpa using hcond.2.2
    · intro _
      rfl

theorem C6_redundancy_suppression_witness :
    mergeStep true noPrefs [c6z, c6w] = [c6z, c6w] := by
  have hfil : tieGroupOf [c6z, c6w] c6z = [c6z, c6w] := by decide
  have hsg : sortedGroupOf [c6z, c6w] = [c6z, c6w] :=
    List.mergeSort_of_sorted (by decide)
  have hbm : buildMerged noPrefs (tieGroupOf [c6z, c6w] c6z) c6z.similarity
      = buildMergedSorted noPrefs [c6z, c6w] [c6z, c6w] c6z.similarity := by
    rw [hfil, buildMerged, hsg]
  refine (C6_redundancy_suppression noPrefs [c6z, c6w] c6z [c6w] rfl
    (by rw [hfil]; decide)).1.mpr ⟨?_, ?_, ?_⟩
  · rw [hbm]; decide
  · rw [hbm]; decide
  · decide

/-- C9 counterexample: when a provider returns the same snippet twice
(same provider, same id) and both copies tie at the top, the merged
record's `_mergedFrom` contains two identical `(provider, id)` pairs —
the code never de-duplicates them. -/
theorem C9_counterexample :
    ∃ m rest', mergeStep true noPrefs [c9x, c9x] = m :: rest'
      ∧ m.provider = "merged"
      ∧ 2 ≤ m.mergedFrom.length ∧ ¬ m.mergedFrom.Nodup := by
  have hfil : tieGroupOf [c9x, c9x] c9x = [c9x, c9x] := by decide
  have hsg : sortedGroupOf [c9x, c9x] = [c9x, c9x] :=
    List.mergeSort_of_sorted (by decide)
  refine ⟨buildMergedSorted noPrefs [c9x, c9x] [c9x, c9x] c9x.similarity,
    [c9x, c9x], ?_, rfl, by decide, by decide⟩
  simp only [mergeStep]
  rw [if_true, hfil]
  rw [if_pos (by decide : 1 < ([c9x, c9x] : List Item).length)]
  rw [show buildMerged noPrefs [c9x, c9x] c9x.similarity
      = buildMergedSorted noPrefs [c9x, c9x] [c9x, c9x] c9x.similarity from by
    rw [buildMerged, hsg]]
  rw [if_neg (by decide)]

/-- C9 (amended): whenever the merge pass prepends a merged record, its
`_mergedFrom` lists one `(provider, id)` pair per tie-group member, so
it has length at least 2; and the pairs are distinct provided the
underlying enriched results have pairwise-distinct `(provider, id)`
pairs (with duplicated inputs the code emits duplicated pairs, see the
counterexample). -/
theorem C9_mergedFrom_entries (prefs : String → Option String) (l : List Item)
    (hnm : ∀ r ∈ l, r.provider ≠ "merged") (m : Item) (rest' : List Item)
    (hout : mergeStep true prefs (rank l) = m :: rest')
    (hm : m.provider = "merged") :
    2 ≤ m.mergedFrom.length
    ∧ ((l.map mergedFromEntry).Nodup → m.mergedFrom.Nodup) := by
  rcases mergeStep_eq_self_or_cons true prefs (rank l) with h | ⟨top, rest, hfr, -, hlen, h⟩
  · rw [h] at hout
    have hmem : m ∈ rank l := by
      rw [hout]
      exact List.mem_cons_self _ _
    exact absurd hm (hnm m (List.mem_mergeSort.mp hmem))
  · rw [h] at hout
    have hmm : m = buildMerged prefs (tieGroupOf (rank l) top) top.similarity := by
      injection hout with h1 _
      exact h1.symm
    have hfrom : m.mergedFrom = (tieGroupOf (rank l) top).map mergedFromEntry := by
      rw [hmm]
      rfl
    constructor
    · rw [hfrom, List.length_map]
      omega
    · intro hnd
      rw [hfrom]
      have hsub : List.Sublist ((tieGroupOf (rank l) top).map mergedFromEntry)
          ((rank l).map mergedFromEntry) :=
        (List.filter_sublist _).map _
      have hperm : ((rank l).map mergedFromEntry).Perm (l.map mergedFromEntry) :=
        (List.mergeSort_perm l rankLE).map _
      exact (hperm.nodup_iff.mpr hnd).sublist hsub

theorem C9_mergedFrom_entries_witness :
    2 ≤ (buildMerged noPrefs (tieGroupOf (rank [c6x, c6y]) c6x) c6x.similarity).mergedFrom.length
    ∧ (buildMerged noPrefs (tieGroupOf (rank [c6x, c6y]) c6x) c6x.similarity).mergedFrom.Nodup := by
  have hr : rank [c6x, c6y] = [c6x, c6y] := List.mergeSort_of_sorted (by decide)
  have hfil : tieGroupOf [c6x, c6y] c6x = [c6x, c6y] := by decide
  have hsg : sortedGroupOf [c6x, c6y] = [c6x, c6y] :=
    List.mergeSort_of_sorted (by decide)
  have hout : mergeStep true noPrefs (rank [c6x, c6y])
      = buildMerged noPrefs (tieGroupOf (rank [c6x, c6y]) c6x) c6x.similarity
        :: rank [c6x, c6y] := by
    rw [hr]
    simp only [mergeStep]
    rw [if_true, hfil]
    rw [if_pos (by decide : 1 < ([c6x, c6y] : List Item).length)]
    rw [show buildMerged noPrefs [c6x, c6y] c6x.similarity
        = buildMergedSorted noPrefs [c6x, c6y] [c6x, c6y] c6x.similarity from by
      rw [buildMerged, hsg]]
    rw [if_neg (by decide)]
  have hres := C9_mergedFrom_entries noPrefs [c6x, c6y] (by decide) _ _ hout rfl
  exact ⟨hres.1, hres.2 (by decide)⟩

/-! ### Concurrency pool lemmas -/

theorem mwcInv_init (g : ℕ → γ) (n w : ℕ) (hw : w = 0 → n = 0) :
    MwcInv g n w (mwcInit γ n w) := by
  constructor
  · simp [mwcInit]
  · simp [mwcInit]
  · intro j v h
    simp only [mwcInit, List.getElem?_replicate] at h
    split at h <;> simp at h
  · intro j hj _
    simp [mwcInit] at hj
  · intro k j h
    simp only [mwcInit, List.getElem?_replicate] at h
    split at h <;> simp at h
  · simp [mwcInit]
  · intro hall
    by_cases hw0 : w = 0
    · rw [hw hw0]
      exact Nat.zero_le _
    · exfalso
      have hmem : WStatus.idle ∈ (mwcInit γ n w).workers := by
        simp only [mwcInit]
        exact List.mem_replicate.mpr ⟨hw0, rfl⟩
      have := hall _ hmem
      simp at this

theorem mwcInv_step (g : ℕ → γ) (n w : ℕ) (s : MwcState γ)
    (hs : MwcInv g n w s) (k : ℕ) : MwcInv g n w (mwcStep g n s k) := by
  rcases hwk : s.workers[k]? with _ | st
  · simp only [mwcStep, hwk]
    exact hs
  · have hk : k < s.workers.length := by
      rcases List.getElem?_eq_some_iff.mp hwk with ⟨h, -⟩
      exact h
    cases st with
    | idle =>
      by_cases hcn : s.counter < n
      · -- claim a fresh index
        simp only [mwcStep, hwk, if_pos hcn]
        constructor
        · exact hs.hres
        · simp [hs.hwork]
        · exact hs.hcorrect
        · intro j hj hjn
          rcases Nat.lt_succ_iff_lt_or_eq.mp hj with hj' | hj'
          · rcases hs.hcover j hj' hjn with h | ⟨k', hk'⟩
            · exact Or.inl h
            · right
              have hne : k ≠ k' := by
                intro he
                rw [← he, hwk] at hk'
                simp at hk'
              exact ⟨k', by rw [List.getElem?_set_ne hne]; exact hk'⟩
          · subst hj'
            exact Or.inr ⟨k, by rw [List.getElem?_set_self hk]⟩
        · intro k' j hk'
          by_cases he : k = k'
          · subst he
            rw [List.getElem?_set_self hk] at hk'
            have hj : s.counter = j := by
              have := Option.some.inj hk'
              injection this
            rw [← hj]
            dsimp only
            omega
          · rw [List.getElem?_set_ne he] at hk'
            have := hs.hclaim k' j hk'
            dsimp only
            omega
        · have h1 : min s.counter n = s.counter := Nat.min_eq_left (le_of_lt hcn)
          have h2 : min (s.counter + 1) n = s.counter + 1 := Nat.min_eq_left hcn
          simp only [hs.hinvoked, h1, h2, List.range_succ]
        · intro hall
          exfalso
          have hmem : WStatus.claimed s.counter ∈ s.workers.set k (WStatus.claimed s.counter) :=
            List.getElem?_mem (List.getElem?_set_self hk)
          have := hall _ hmem
          simp at this
      · -- cursor exhausted: retire
        simp only [mwcStep, hwk, if_neg hcn]
        have hnc : n ≤ s.counter := Nat.le_of_not_lt hcn
        constructor
        · exact hs.hres
        · simp [hs.hwork]
        · exact hs.hcorrect
        · intro j hj hjn
          have hj' : j < s.counter := lt_of_lt_of_le hjn hnc
          rcases hs.hcover j hj' hjn with h | ⟨k', hk'⟩
          · exact Or.inl h
          · right
            have hne : k ≠ k' := by
              intro he
              rw [← he, hwk] at hk'
              simp at hk'
            exact ⟨k', by rw [List.getElem?_set_ne hne]; exact hk'⟩
        · intro k' j hk'
          by_cases he : k = k'
          · subst he
            rw [List.getElem?_set_self hk] at hk'
            simp at hk'
          · rw [List.getElem?_set_ne he] at hk'
            have := hs.hclaim k' j hk'
            dsimp only
            omega
        · have h1 : min s.counter n = n := Nat.min_eq_right hnc
          have h2 : min (s.counter + 1) n = n := Nat.min_eq_right (Nat.le_succ_of_le hnc)
          simp only [hs.hinvoked, h1, h2]
        · intro _
          exact Nat.le_succ_of_le hnc
    | claimed idx =>
      simp only [mwcStep, hwk]
      have hidx := hs.hclaim k idx hwk
      have hidxlen : idx < s.results.length := by
        rw [hs.hres]
        exact hidx.2
      constructor
      · simp [hs.hres]
      · simp [hs.hwork]
      · intro j v hj
        by_cases he : idx = j
        · subst he
          rw [List.getElem?_set_self hidxlen] at hj
          have := Option.some.inj hj
          exact (Option.some.inj this).symm
        · rw [List.getElem?_set_ne he] at hj
          exact hs.hcorrect j v hj
      · intro j hj hjn
        by_cases he : idx = j
        · subst he
          exact Or.inl (by rw [List.getElem?_set_self hidxlen])
        · rcases hs.hcover j hj hjn with h | ⟨k', hk'⟩
          · exact Or.inl (by rw [List.getElem?_set_ne he]; exact h)
          · right
            have hne : k ≠ k' := by
              intro hkk
              rw [← hkk, hwk] at hk'
              have := Option.some.inj hk'
              have : idx = j := by injection this
              exact he this
            exact ⟨k', by rw [List.getElem?_set_ne hne]; exact hk'⟩
      · intro k' j hk'
        by_cases he : k = k'
        · subst he
          rw [List.getElem?_set_self hk] at hk'
          simp at hk'
        · rw [List.getElem?_set_ne he] at hk'
          exact hs.hclaim k' j hk'
      · exact hs.hinvoked
      · intro hall
        exfalso
        have hmem : WStatus.idle ∈ s.workers.set k WStatus.idle :=
          List.getElem?_mem (List.getElem?_set_self hk)
        have := hall _ hmem
        simp at this
    | retired =>
      simp only [mwcStep, hwk]
      exact hs

theorem mwcInv_run (g : ℕ → γ) (n w : ℕ) (σ : List ℕ) (hw : w = 0 → n = 0) :
    MwcInv g n w (mwcRun g n w σ) := by
  have hgen : ∀ (τ : List ℕ) (s : MwcState γ), MwcInv g n w s →
      MwcInv g n w (τ.foldl (mwcStep g n) s) := by
    intro τ
    induction τ with
    | nil => exact fun s hs => hs
    | cons k τ ih => exact fun s hs => ih _ (mwcInv_step g n w s hs k)
  exact hgen σ _ (mwcInv_init g n w hw)

/-- Every complete run fills every slot with its slot value and has
invoked the iterator exactly once per index, in ascending index order. -/
theorem mwcRun_complete (g : ℕ → γ) (n w : ℕ) (σ : List ℕ) (hw : w = 0 → n = 0)
    (hdone : mwcDone (mwcRun g n w σ)) :
    (mwcRun g n w σ).results = (List.range n).map (fun j => some (g j))
    ∧ (mwcRun g n w σ).invoked = List.range n := by
  have hs := mwcInv_run g n w σ hw
  have hcnt : n ≤ (mwcRun g n w σ).counter := hs.hretire hdone
  constructor
  · apply List.ext_getElem?
    intro j
    by_cases hj : j < n
    · have hcov := hs.hcover j (lt_of_lt_of_le hj hcnt) hj
      rcases hcov with hwr | ⟨k, hk⟩
      · rw [hwr, List.getElem?_map, List.getElem?_range hj]
        rfl
      · exfalso
        have hmem := List.getElem?_mem hk
        have := hdone _ hmem
        simp at this
    · rw [List.getElem?_eq_none (by rw [hs.hres]; omega),
        List.getElem?_eq_none (by rw [List.length_map, List.length_range]; omega)]
  · rw [hs.hinvoked, Nat.min_eq_right hcnt]

/-- The array a complete `mapWithConcurrency` run returns is the input
mapped through the caught iterator, in input order. -/
theorem mwcResults_complete (items : List α) (iter : α → Option β) (limit : ℕ)
    (σ : List ℕ) (hlim : 1 ≤ limit)
    (hdone : mwcDone (mwcRun (slotValue items iter) items.length
      (min limit items.length) σ)) :
    mwcResults items iter limit σ = items.map (fun a => some (iter a)) := by
  have hw : min limit items.length = 0 → items.length = 0 := by
    intro h
    rcases Nat.min_eq_zero_iff.mp h with h | h
    · omega
    · exact h
  have hc := mwcRun_complete (slotValue items iter) items.length
    (min limit items.length) σ hw hdone
  unfold mwcResults
  rw [hc.1]
  apply List.ext_getElem?
  intro j
  rw [List.getElem?_map, List.getElem?_map]
  by_cases hj : j < items.length
  · rw [List.getElem?_range hj, List.getElem?_eq_getElem hj]
    simp only [Option.map_some']
    unfold slotValue
    rw [List.getElem?_eq_getElem hj]
  · rw [List.getElem?_eq_none (by rw [List.length_range]; omega),
      List.getElem?_eq_none (by omega)]
    rfl

/-- C10: `mapWithConcurrency` preserves input order and applies its
iterator exactly once per item: for every complete run with at least one
worker allowed, the returned array has one slot per input, slot `i`
holding the iterator's result for `items[i]` (`null` when that
application threw), the iterator is invoked exactly once per index (the
invocation trace is exactly `0, 1, …, n-1`), and the result is
independent of the concurrency limit and of the scheduling. -/
theorem C10_mapWithConcurrency (items : List α) (iter : α → Option β)
    (limit : ℕ) (σ : List ℕ) (hlim : 1 ≤ limit)
    (hdone : mwcDone (mwcRun (slotValue items iter) items.length
      (min limit items.length) σ)) :
    mwcResults items iter limit σ = items.map (fun a => some (iter a))
    ∧ (mwcRun (slotValue items iter) items.length (min limit items.length) σ).invoked
        = List.range items.length
    ∧ (∀ (limit₂ : ℕ) (σ₂ : List ℕ), 1 ≤ limit₂ →
        mwcDone (mwcRun (slotValue items iter) items.length
          (min limit₂ items.length) σ₂) →
        mwcResults items iter limit σ = mwcResults items iter limit₂ σ₂) := by
  have hw : min limit items.length = 0 → items.length = 0 := by
    intro h
    rcases Nat.min_eq_zero_iff.mp h with h | h
    · omega
    · exact h
  refine ⟨mwcResults_complete items iter limit σ hlim hdone, ?_, ?_⟩
  · exact (mwcRun_complete (slotValue items iter) items.length
      (min limit items.length) σ hw hdone).2
  · intro limit₂ σ₂ hlim₂ hdone₂
    rw [mwcResults_complete items iter limit σ hlim hdone,
      mwcResults_complete items iter limit₂ σ₂ hlim₂ hdone₂]

theorem C10_mapWithConcurrency_witness :
    mwcResults [10, 20, 30] (fun a => if a = 20 then none else some (a + 1)) 2
        [0, 1, 0, 1, 0, 1, 0, 0]
      = [10, 20, 30].map (fun a => some (if a = 20 then none else some (a + 1))) :=
  (C10_mapWithConcurrency [10, 20, 30] (fun a => if a = 20 then none else some (a + 1))
    2 [0, 1, 0, 1, 0, 1, 0, 0] (by norm_num) (by decide)).1

/-- C8: enrichment failure isolation.  Through the pool path, a complete
run yields exactly the already-full items followed by the successful
fetches of the remaining candidates in order — a candidate whose fetch
throws is excluded while every sibling whose fetch succeeds still
appears, and it appears in the final ranked output; a provider without
the enrichment capability passes all its candidates through unchanged
(both on the pool path and on the sequential fallback path). -/
theorem C8_enrichment_isolation (f : Item → Option Item) (limit : ℕ) (σ : List ℕ)
    (ms rest : List Item) (hlim : 1 ≤ limit)
    (hdone : mwcDone (mwcRun
      (slotValue (ms.filter (fun m => !m.fullFetched)) (wrapFetch (some f)))
      (ms.filter (fun m => !m.fullFetched)).length
      (min limit (ms.filter (fun m => !m.fullFetched)).length) σ)) :
    (enrichGroupMwc (some f) limit σ ms
      = ms.filter (fun m => m.fullFetched)
        ++ (ms.filter (fun m => !m.fullFetched)).filterMap f)
    ∧ (∀ x ∈ ms, x.fullFetched = false → f x = none →
        ∀ y fy, y ∈ ms → y.fullFetched = false → f y = some fy →
          fy ∈ rank (enrichGroupMwc (some f) limit σ ms ++ rest))
    ∧ (∀ σ₂ : List ℕ,
        mwcDone (mwcRun
          (slotValue (ms.filter (fun m => !m.fullFetched)) (wrapFetch none))
          (ms.filter (fun m => !m.fullFetched)).length
          (min limit (ms.filter (fun m => !m.fullFetched)).length) σ₂) →
        enrichGroupMwc none limit σ₂ ms
          = ms.filter (fun m => m.fullFetched) ++ ms.filter (fun m => !m.fullFetched))
    ∧ (enrichGroupSeq none ms
        = ms.filter (fun m => m.fullFetched) ++ ms.filter (fun m => !m.fullFetched))
    ∧ ((∀ m ∈ ms, m.fullFetched = false) → enrichGroupSeq none ms = ms) := by
  have hmain : enrichGroupMwc (some f) limit σ ms
      = ms.filter (fun m => m.fullFetched)
        ++ (ms.filter (fun m => !m.fullFetched)).filterMap f := by
    unfold enrichGroupMwc
    rw [mwcResults_complete _ _ _ _ hlim hdone]
    congr 1
    rw [List.filterMap_map]
    apply List.filterMap_congr
    intro m _
    rfl
  refine ⟨hmain, ?_, ?_, ?_, ?_⟩
  · intro x _ _ _ y fy hy hyf hfy
    apply List.mem_mergeSort.mpr
    apply List.mem_append_left
    rw [hmain]
    apply List.mem_append_right
    exact List.mem_filterMap.mpr ⟨y, List.mem_filter.mpr ⟨hy, by simp [hyf]⟩, hfy⟩
  · intro σ₂ hdone₂
    unfold enrichGroupMwc
    rw [mwcResults_complete _ _ _ _ hlim hdone₂]
    congr 1
    rw [List.filterMap_map]
    have : ∀ m : Item, ((fun slot => Option.bind slot id) ∘
        (fun a => some (wrapFetch none a))) m = some m := fun m => rfl
    rw [List.filterMap_congr (fun m _ => this m)]
    simp
  · unfold enrichGroupSeq
    congr 1
    have : ∀ m ∈ ms.filter (fun m => !m.fullFetched), wrapFetch none m = some m :=
      fun m _ => rfl
    rw [List.filterMap_congr this]
    simp
  · intro hall
    unfold enrichGroupSeq
    have h1 : ms.filter (fun m => m.fullFetched) = [] := by
      apply List.filter_eq_nil_iff.mpr
      intro a ha
      simp [hall a ha]
    have h2 : ms.filter (fun m => !m.fullFetched) = ms := by
      apply List.filter_eq_self.mpr
      intro a ha
      simp [hall a ha]
    rw [h1, h2, List.nil_append]
    have : ∀ m ∈ ms, wrapFetch none m = some m := fun m _ => rfl
    rw [List.filterMap_congr this]
    simp

theorem C8_enrichment_isolation_witness :
    w8b ∈ rank (enrichGroupMwc (some f8) 5 [0, 1, 0, 1, 0, 1] [w8a, w8b] ++ []) :=
  (C8_enrichment_isolation f8 5 [0, 1, 0, 1, 0, 1] [w8a, w8b] [] (by norm_num)
      (by decide)).2.1
    w8a (by decide) (by decide) (by decide)
    w8b w8b (by decide) (by decide) (by decide)

end AioAbs
